import Mathlib

/-!
# Verification of the CompanyCam SDK HTTP transport layer

Shallow embedding of the SDK core (`src/http/RateLimiter.ts`,
`src/http/HttpClient.ts`, `src/http/Errors.ts`, `src/resources/utils.ts`)
and proofs about the behaviour that the design document ascribes to it.

JavaScript numbers are modelled as `Rat` (the code never relies on overflow
or on NaN/Infinity propagation in the fragments embedded here); JavaScript
strings as Lean `String`; `undefined`/absent values as `Option`.
-/

namespace CompanyCam

/-! ## RateLimiter (src/http/RateLimiter.ts)

The limiter's mutable state is `tokens` plus a FIFO `queue` of pending
acquisitions.  A queue entry is `(id, aborted)`: `id` is the arrival index
(the model numbers `acquire` calls consecutively, so arrival order is the
numeric order of ids) and `aborted` mirrors the `signal.aborted` flag that
`refill` reads via `pending.signal?.aborted`.  `disposed` records that
`dispose()` ran `clearInterval`, after which no further refill tick can
fire. -/

structure RLState where
  cap : Rat
  tokens : Rat
  queue : List (Nat × Bool)
  disposed : Bool
  nextId : Nat
deriving DecidableEq

/-- The operations that can act on one `RateLimiter` instance, in the
single-threaded event-loop model: an `acquire(signal)` call (with the
signal's current aborted state), an abort event firing for the signal of
waiter `id` (the `onAbort` listener: `removeFromQueue` + reject), the
`aborted` flag of waiter `id` flipping without a listener firing (read
later by `refill`), one timer tick of `refill()`, and `dispose()`. -/
inductive RLOp where
  | acquire (aborted : Bool)
  | fireAbort (id : Nat)
  | markAborted (id : Nat)
  | refillTick
  | dispose
deriving DecidableEq

/-- Observable promise settlements: a waiter's promise resolves (token
granted), rejects with the abort error (`createAbortError`), or rejects
with `new Error("Rate limiter disposed")`. -/
inductive RLEvent where
  | granted (id : Nat)
  | rejectedCancelled (id : Nat)
  | rejectedDisposed (id : Nat)
deriving DecidableEq

/-- `Math.max` on two (non-NaN) numbers. -/
def jsMax (a b : Rat) : Rat := if a < b then b else a

/-- `String.prototype.toUpperCase()` (ASCII case mapping; the HTTP method
strings this client handles are ASCII). -/
def jsToUpper (s : String) : String := ⟨s.data.map Char.toUpper⟩

/-- `Math.max(1, options.tokensPerInterval ?? 100)` from the constructor. -/
def rlTokensPerInterval (topt : Option Rat) : Rat := jsMax 1 (topt.getD 100)

/-- `Math.max(1, options.intervalMs ?? 60_000)` from the constructor. -/
def rlIntervalMs (iopt : Option Rat) : Rat := jsMax 1 (iopt.getD 60000)

/-- `this.refillInterval = this.intervalMs / this.tokensPerInterval`. -/
def rlRefillInterval (topt iopt : Option Rat) : Rat :=
  rlIntervalMs iopt / rlTokensPerInterval topt

/-- Constructor: bucket starts full (`this.tokens = this.tokensPerInterval`),
empty queue, timer armed. -/
def initRL (topt iopt : Option Rat) : RLState :=
  { cap := rlTokensPerInterval topt
    tokens := rlTokensPerInterval topt
    queue := []
    disposed := false
    nextId := 0 }

/-- The `while (this.tokens > 0 && this.queue.length > 0)` loop of
`refill()`: pop the head; if its signal is aborted, reject it and continue
without consuming a token; otherwise consume one token and resolve it. -/
def drain : Rat → List (Nat × Bool) → Rat × List (Nat × Bool) × List RLEvent
  | t, [] => (t, [], [])
  | t, (id, ab) :: rest =>
    if 0 < t then
      if ab then
        let r := drain t rest
        (r.1, r.2.1, RLEvent.rejectedCancelled id :: r.2.2)
      else
        let r := drain (t - 1) rest
        (r.1, r.2.1, RLEvent.granted id :: r.2.2)
    else (t, (id, ab) :: rest, [])

/-- One operation on the limiter, returning the new state and the promise
settlements it causes, transcribed from `acquire`, the abort listener,
`refill` and `dispose` in `RateLimiter.ts`. -/
def stepRL (s : RLState) : RLOp → RLState × List RLEvent
  | RLOp.acquire aborted =>
    -- acquire: `if (signal?.aborted) return Promise.reject(createAbortError())`
    if aborted then
      ({ s with nextId := s.nextId + 1 }, [RLEvent.rejectedCancelled s.nextId])
    -- `if (this.tokens > 0) { this.tokens -= 1; return Promise.resolve(); }`
    else if 0 < s.tokens then
      ({ s with tokens := s.tokens - 1, nextId := s.nextId + 1 },
        [RLEvent.granted s.nextId])
    -- otherwise `this.queue.push(pending)`
    else
      ({ s with queue := s.queue ++ [(s.nextId, false)], nextId := s.nextId + 1 }, [])
  | RLOp.fireAbort id =>
    -- onAbort: `this.removeFromQueue(pending); reject(createAbortError())`;
    -- `removeFromQueue` splices out the first matching entry.  If the entry
    -- already left the queue its promise is already settled, so no new
    -- settlement is observable.
    if s.queue.any (fun p => p.1 == id) then
      ({ s with queue := s.queue.eraseP (fun p => p.1 == id) },
        [RLEvent.rejectedCancelled id])
    else (s, [])
  | RLOp.markAborted id =>
    -- the signal's `aborted` property becomes true without an event listener
    -- having been attached; `refill` will observe it later.
    ({ s with queue := s.queue.map (fun p => if p.1 == id then (p.1, true) else p) }, [])
  | RLOp.refillTick =>
    -- after `dispose()` ran `clearInterval`, the tick can no longer fire.
    if s.disposed then (s, [])
    else
      -- `if (this.tokens < this.tokensPerInterval) this.tokens += 1`
      let t1 := if s.tokens < s.cap then s.tokens + 1 else s.tokens
      let r := drain t1 s.queue
      -- `if (this.tokens > this.tokensPerInterval) this.tokens = this.tokensPerInterval`
      let t2 := if s.cap < r.1 then s.cap else r.1
      ({ s with tokens := t2, queue := r.2.1 }, r.2.2)
  | RLOp.dispose =>
    -- `clearInterval(this.refillHandle)` then shift-and-reject every waiter
    -- with `new Error("Rate limiter disposed")`.
    ({ s with queue := [], disposed := true },
      s.queue.map (fun p => RLEvent.rejectedDisposed p.1))

/-- Run a whole sequence of operations, concatenating the emitted events. -/
def runRL (s : RLState) : List RLOp → RLState × List RLEvent
  | [] => (s, [])
  | op :: ops =>
    let r1 := stepRL s op
    let r2 := runRL r1.1 ops
    (r2.1, r1.2 ++ r2.2)

/-- Arrival ids currently queued, front first. -/
def queueIds (s : RLState) : List Nat := s.queue.map Prod.fst

/-- Ids of waiters granted a token, in grant order. -/
def grantedIds (evs : List RLEvent) : List Nat :=
  evs.filterMap fun e => match e with
    | RLEvent.granted i => some i
    | _ => none

/-- Ids of waiters rejected with the abort error, in rejection order. -/
def cancelledIds (evs : List RLEvent) : List Nat :=
  evs.filterMap fun e => match e with
    | RLEvent.rejectedCancelled i => some i
    | _ => none

/-- Reachability invariant tying a limiter state to the ids granted so far
(`g`) and the ids rejected through cancellation so far (`c`).  Arrival ids
are assigned consecutively by `stepRL`, so "FIFO relative to arrival order"
is "numerically increasing". -/
structure RLInv (s : RLState) (g c : List Nat) : Prop where
  qSorted : (queueIds s).Pairwise (· < ·)
  qBound : ∀ i ∈ queueIds s, i < s.nextId
  gSorted : g.Pairwise (· < ·)
  gBound : ∀ i ∈ g, i < s.nextId
  cBound : ∀ i ∈ c, i < s.nextId
  gLtQ : ∀ i ∈ g, ∀ j ∈ queueIds s, i < j
  gcDisj : ∀ i ∈ g, i ∉ c
  cqDisj : ∀ i ∈ c, i ∉ queueIds s
  tokPos : 0 < s.tokens → s.queue = []
  capPos : 1 ≤ s.cap

/-- The token count is a natural number not exceeding the capacity (used
for the integer-capacity part of the bounds claim). -/
def NatTok (s : RLState) : Prop := ∃ k : Nat, s.tokens = (k : Rat) ∧ s.tokens ≤ s.cap

/-- The capacity is a natural number. -/
def NatCap (s : RLState) : Prop := ∃ m : Nat, s.cap = (m : Rat)

/-! ## HttpClient retry policy (src/http/HttpClient.ts) -/

/-- `IDEMPOTENT_METHODS = new Set(["GET", "PUT", "PATCH", "DELETE"])`. -/
def IDEMPOTENT_METHODS : List String := ["GET", "PUT", "PATCH", "DELETE"]

/-- The parts of an `AxiosError` that `shouldRetry` and axios-retry's
`isNetworkError` read: `config?.method` (`none` when the config or the
method is absent), the response status (`none` exactly when no response
was received — an axios response always carries a status), `error.code`,
and the verdict of the `is-retry-allowed` package on the error. -/
structure RetryErr where
  method : Option String
  status : Option Nat
  code : Option String
  retryAllowed : Bool

/-- `isNetworkError` from `axios-retry`: no response, a truthy `code`
outside `[ERR_CANCELED, ECONNABORTED]`, and `isRetryAllowed(error)`. -/
def isNetworkError (e : RetryErr) : Bool :=
  e.status.isNone
    && (match e.code with
        | none => false
        | some c => (c != "") && (c != "ERR_CANCELED") && (c != "ECONNABORTED"))
    && e.retryAllowed

/-- The `status === 408 || status === 429 || (status !== undefined &&
status >= 500)` test of `shouldRetry`. -/
def statusRetryable (st : Option Nat) : Bool :=
  match st with
  | some n => (n == 408) || (n == 429) || decide (500 ≤ n)
  | none => false

/-- `HttpClient.shouldRetry`, transcribed: uppercase the method
(`error.config?.method?.toUpperCase()`); `!method` (missing or empty) is
retryable, as are the four idempotent methods, and POST exactly when
`allowPostRetry` is set; an eligible method retries on a retryable status,
else falls back to `isNetworkError`. -/
def shouldRetry (allowPostRetry : Bool) (e : RetryErr) : Bool :=
  let um := e.method.map jsToUpper
  let isMethodRetryable :=
    match um with
    | none => true
    | some m => (m == "") || IDEMPOTENT_METHODS.contains m || (allowPostRetry && m == "POST")
  if !isMethodRetryable then false
  else if statusRetryable e.status then true
  else isNetworkError e

/-- The claim's eligibility rule, verbatim: GET/PUT/PATCH/DELETE
unconditionally; POST only when `allowPostRetry` is configured; *any
other* or missing method treated as retryable by default. -/
def claimedMethodEligible (allowPostRetry : Bool) (m : Option String) : Bool :=
  match m.map jsToUpper with
  | some "GET" | some "PUT" | some "PATCH" | some "DELETE" => true
  | some "POST" => allowPostRetry
  | _ => true

/-- The claim's retry rule: eligible method AND (status 408, 429 or ≥ 500,
OR a network-level failure with no response). -/
def claimedShouldRetry (allowPostRetry : Bool) (e : RetryErr) : Bool :=
  claimedMethodEligible allowPostRetry e.method
    && (statusRetryable e.status || (e.status.isNone && isNetworkError e))

/-- The amended eligibility rule: a missing or *empty* method is retryable
by default; otherwise only GET/PUT/PATCH/DELETE, plus POST when
`allowPostRetry`, are eligible — any other named method is never
retried. -/
def amendedMethodEligible (allowPostRetry : Bool) (m : Option String) : Bool :=
  match m with
  | none => true
  | some x =>
    if jsToUpper x = "" then true
    else if jsToUpper x = "GET" ∨ jsToUpper x = "PUT" ∨ jsToUpper x = "PATCH" ∨ jsToUpper x = "DELETE"
      then true
    else if jsToUpper x = "POST" then allowPostRetry
    else false

/-- The possible parses of a `Retry-After` header value, as classified by
`getRetryAfterDelay`: absent (no header, or an empty string / empty first
array element, which the code rejects before parsing), a finite
`Number(...)` (seconds), a parseable HTTP date (`Date.parse`, absolute
milliseconds), or an unparseable string (both parses fail). -/
inductive RetryAfterVal where
  | missing
  | numeric (secs : Rat)
  | httpDate (ms : Int)
  | unparseable
deriving DecidableEq

/-- `Math.min` on two (non-NaN) numbers. -/
def jsMin (a b : Rat) : Rat := if a < b then a else b

def BASE_DELAY_MS : Rat := 200

def MAX_DELAY_MS : Rat := 8000

/-- `HttpClient.getRetryAfterDelay`: a finite numeric value gives
`Math.max(0, seconds * 1000)`; otherwise a parseable date gives
`Math.max(0, date - Date.now())`; otherwise `null`. -/
def getRetryAfterDelay (h : RetryAfterVal) (now : Int) : Option Rat :=
  match h with
  | RetryAfterVal.missing => none
  | RetryAfterVal.numeric s => some (jsMax 0 (s * 1000))
  | RetryAfterVal.httpDate d => some (jsMax 0 ((d - now : Int) : Rat))
  | RetryAfterVal.unparseable => none

/-- `HttpClient.computeRetryDelay`; `rand` stands for the `Math.random()`
draw in `[0, 1)` and `0.2` is modelled as the exact rational `1/5`. -/
def computeRetryDelay (retryCount : Nat) (h : RetryAfterVal) (now : Int) (rand : Rat) : Rat :=
  match getRetryAfterDelay h now with
  | some ra => jsMin ra MAX_DELAY_MS
  | none =>
    -- `Math.min(MAX_DELAY_MS, BASE_DELAY_MS * 2 ** Math.max(0, retryCount - 1))`;
    -- natural-number subtraction is `Math.max(0, retryCount - 1)`.
    let exponential := jsMin MAX_DELAY_MS (BASE_DELAY_MS * 2 ^ (retryCount - 1))
    let jitter := rand * exponential * (1 / 5)
    exponential + jitter

/-- The delay the claim prescribes, verbatim: a numeric `Retry-After` of
`s` seconds gives `s × 1000` ms capped at 8000 (no lower clamp!); a date
gives `max(0, date − now)` capped at 8000; otherwise exponential backoff
plus jitter. -/
def claimedRetryDelay (retryCount : Nat) (h : RetryAfterVal) (now : Int) (rand : Rat) : Rat :=
  match h with
  | RetryAfterVal.numeric s => jsMin (s * 1000) MAX_DELAY_MS
  | RetryAfterVal.httpDate d => jsMin (jsMax 0 ((d - now : Int) : Rat)) MAX_DELAY_MS
  | _ =>
    let exponential := jsMin MAX_DELAY_MS (BASE_DELAY_MS * 2 ^ (retryCount - 1))
    exponential + rand * exponential * (1 / 5)

/-- The amended delay: as the claim, but the numeric-seconds branch is also
clamped below at 0 before the cap.  Note the `Retry-After` branches do not
mention `retryCount`, so the header-driven delay is independent of the
attempt number. -/
def amendedRetryDelay (retryCount : Nat) (h : RetryAfterVal) (now : Int) (rand : Rat) : Rat :=
  match h with
  | RetryAfterVal.numeric s => jsMin (jsMax 0 (s * 1000)) MAX_DELAY_MS
  | RetryAfterVal.httpDate d => jsMin (jsMax 0 ((d - now : Int) : Rat)) MAX_DELAY_MS
  | _ =>
    let exponential := jsMin MAX_DELAY_MS (BASE_DELAY_MS * 2 ^ (retryCount - 1))
    exponential + rand * exponential * (1 / 5)

/-! ## HttpClient.prepareRequestConfig — header merging -/

/-- A per-call header value as the merge distinguishes them: a string, an
array of strings (joined with `", "`), or an explicit `null`/`undefined`
entry (dropped). -/
inductive HVal where
  | str (s : String)
  | arr (l : List String)
  | nullv
  | undef
deriving DecidableEq

/-- How the merge renders one per-call entry: `value === undefined || value
=== null` entries are skipped, arrays become `value.join(", ")`, anything
else `String(value)`. -/
def renderHVal : HVal → Option String
  | HVal.str s => some s
  | HVal.arr l => some (String.intercalate ", " l)
  | HVal.nullv => none
  | HVal.undef => none

/-- Assignment `mergedHeaders[key] = value` on a JS object, modelled as an
insertion-ordered association list: overwrite in place when the key is
present, append otherwise. -/
def setHeader (m : List (String × String)) (k v : String) : List (String × String) :=
  if m.any (fun p => p.1 == k) then
    m.map (fun p => if p.1 == k then (k, v) else p)
  else m ++ [(k, v)]

/-- `const token = authToken ?? this.authToken`. -/
def effectiveToken (clientToken callToken : Option String) : Option String :=
  match callToken with
  | some t => some t
  | none => clientToken

/-- JS truthiness of an optional string. -/
def truthy : Option String → Bool
  | some s => s != ""
  | none => false

/-- The header part of `HttpClient.prepareRequestConfig`: spread of the
client `defaultHeaders`, then the per-call headers folded over it in
entry order (nullish values skipped, arrays joined), then
`Authorization: Bearer <token>` when the effective token is truthy, then
`Idempotency-Key` when the supplied key is truthy. -/
def prepareHeaders (defaults : List (String × String))
    (callHeaders : Option (List (String × HVal)))
    (clientToken : Option String) (callToken : Option String)
    (idemKey : Option String) : List (String × String) :=
  let m1 := match callHeaders with
    | none => defaults
    | some hs => hs.foldl (fun acc kv =>
        match renderHVal kv.2 with
        | none => acc
        | some v => setHeader acc kv.1 v) defaults
  let m2 := match effectiveToken clientToken callToken with
    | some t => if t = "" then m1 else setHeader m1 "Authorization" ("Bearer " ++ t)
    | none => m1
  match idemKey with
  | some k => if k = "" then m2 else setHeader m2 "Idempotency-Key" k
  | none => m2

/-- The last per-call value provided for key `k` that survives the
null/undefined drop, rendered (later entries win). -/
def lastCallValue : List (String × HVal) → String → Option String
  | [], _ => none
  | kv :: t, k =>
    match lastCallValue t k with
    | some w => some w
    | none => if kv.1 = k then renderHVal kv.2 else none

/-- The claim's description of the merged headers, read per key with later
sources winning: the computed `Idempotency-Key` when a key was supplied,
else the computed `Authorization: Bearer <token>` when an effective token
exists (per-call token taking precedence), else the last surviving
per-call header, else the client default. -/
def claimedHeaderValue (defaults : List (String × String))
    (callHeaders : Option (List (String × HVal)))
    (clientToken : Option String) (callToken : Option String)
    (idemKey : Option String) (k : String) : Option String :=
  if truthy idemKey && (k == "Idempotency-Key") then idemKey
  else if truthy (effectiveToken clientToken callToken) && (k == "Authorization") then
    (effectiveToken clientToken callToken).map (fun t => "Bearer " ++ t)
  else
    match (match callHeaders with
           | none => none
           | some hs => lastCallValue hs k) with
    | some v => some v
    | none => List.lookup k defaults

/-! ## APIError.fromAxios (src/http/Errors.ts) -/

/-- A response header value: a string, or something that is not a string
(axios header values may also be arrays or numbers). -/
inductive HdrVal where
  | str (s : String)
  | nonstr
deriving DecidableEq

/-- The error body as `fromAxios` reads it: `errors` is `some l` exactly
when the body's `errors` field is an array (`Array.isArray` guard, entries
typed `string[]` by `APIProblem`), and `code` is the body's `code` field
when present. -/
structure ProblemModel where
  errors : Option (List String)
  code : Option String
deriving DecidableEq

/-- The response attached to an axios error: status, status text, headers,
and the (possibly absent) parsed body. -/
structure RespModel where
  status : Nat
  statusText : String
  headers : List (String × HdrVal)
  data? : Option ProblemModel
deriving DecidableEq

/-- The parts of an `AxiosError` that `fromAxios` reads. -/
structure AxiosErrModel where
  response : Option RespModel
  configMethod : Option String
  configUrl : Option String
  message : String
deriving DecidableEq

/-- The `APIError` fields that `fromAxios` fills in. -/
structure APIErrorModel where
  message : String
  status : Option Nat
  code : Option String
  problem : Option ProblemModel
  requestId : Option String
  method : Option String
  url : Option String
deriving DecidableEq

/-- A JS `a || b || ... || d` chain over possibly-absent strings: the first
present, non-empty (truthy) entry, else the final fallback. -/
def firstTruthy : List (Option String) → String → String
  | [], d => d
  | some s :: t, d => if s = "" then firstTruthy t d else s
  | none :: t, d => firstTruthy t d

/-- `headers["x-request-id"] ?? headers["x-amzn-requestid"]` followed by
the `typeof requestId === "string"` check. -/
def headerString (headers : List (String × HdrVal)) (h1 h2 : String) : Option String :=
  match (match List.lookup h1 headers with
         | some v => some v
         | none => List.lookup h2 headers) with
  | some (HdrVal.str s) => some s
  | _ => none

/-- `APIError.fromAxios`, transcribed field by field: `problem =
response?.data ?? undefined`; `errors = Array.isArray(problem?.errors) ?
problem?.errors : undefined`; `message = errors?.[0] ||
response?.statusText || error.message || "Unexpected API error"`;
`requestId` from the two headers with a string check; `method` uppercased
from the request config. -/
def fromAxios (e : AxiosErrModel) : APIErrorModel :=
  let problem := e.response.bind (fun r => r.data?)
  let errors := problem.bind (fun p => p.errors)
  { message := firstTruthy
      [errors.bind List.head?, e.response.map (fun r => r.statusText), some e.message]
      "Unexpected API error"
    status := e.response.map (fun r => r.status)
    code := problem.bind (fun p => p.code)
    problem := problem
    requestId := match e.response with
      | none => none
      | some r => headerString r.headers "x-request-id" "x-amzn-requestid"
    method := e.configMethod.map jsToUpper
    url := e.configUrl }

/-- The message the claim prescribes, verbatim: the first entry of the
body's `errors` array if that array is present and non-empty (no emptiness
check on the entry itself); else the response's status text; else the
error's own message (the generic fallback is unreachable under this literal
reading, `message` always being a string). -/
def claimedMessage (e : AxiosErrModel) : String :=
  match (e.response.bind (fun r => r.data?)).bind (fun p => p.errors) with
  | some (first :: _) => first
  | _ =>
    match e.response with
    | some r => r.statusText
    | none => e.message

/-- The amended fallback chain below the errors array: the response's
status text when a response arrived with a non-empty status text, else the
error's own message when non-empty, else `"Unexpected API error"`. -/
def amendedFallback (e : AxiosErrModel) : String :=
  match e.response with
  | some r =>
    if r.statusText = "" then
      (if e.message = "" then "Unexpected API error" else e.message)
    else r.statusText
  | none => if e.message = "" then "Unexpected API error" else e.message

/-- The amended message rule: the first entry of the `errors` array when
that array is present, non-empty, *and its first entry is a non-empty
string*; otherwise the fallback chain. -/
def amendedMessage (e : AxiosErrModel) : String :=
  match ((e.response.bind (fun r => r.data?)).bind (fun p => p.errors)).bind List.head? with
  | some s => if s = "" then amendedFallback e else s
  | none => amendedFallback e

/-- Concrete failing input for the message clause: a 400 response whose
body's `errors` array is `[""]` (present and non-empty) and whose status
text is `"Bad Request"`. -/
def c8resp : RespModel :=
  { status := 400
    statusText := "Bad Request"
    headers := []
    data? := some { errors := some [""], code := none } }

def c8err : AxiosErrModel :=
  { response := some c8resp
    configMethod := none
    configUrl := none
    message := "boom" }

/-- The amended request-id rule: take the `x-request-id` header, falling
back to `x-amzn-requestid` only when `x-request-id` is absent, and keep
the selected value only when it is a string. -/
def amendedRequestId (e : AxiosErrModel) : Option String :=
  match e.response with
  | none => none
  | some r =>
    match (match List.lookup "x-request-id" r.headers with
           | some v => some v
           | none => List.lookup "x-amzn-requestid" r.headers) with
    | some (HdrVal.str s) => some s
    | _ => none

/-! ## encodePathParam (src/resources/utils.ts)

`encodePathParam(value) = encodeURIComponent(value)`.  The JS function
percent-encodes, with uppercase hex, every UTF-8 byte of every character
outside `A–Z a–z 0–9 - _ . ! ~ * ' ( )`; it throws on lone surrogates, so
strings of Unicode scalar values (Lean `String`) model exactly the
non-throwing inputs. -/

/-- The characters `encodeURIComponent` leaves unescaped. -/
def isUnescapedJS (c : Char) : Bool :=
  let n := c.toNat
  (65 ≤ n && n ≤ 90) || (97 ≤ n && n ≤ 122) || (48 ≤ n && n ≤ 57) ||
    n == 45 || n == 95 || n == 46 || n == 33 || n == 126 || n == 42 ||
    n == 39 || n == 40 || n == 41

/-- The UTF-8 bytes of a Unicode scalar value. -/
def utf8Encode (c : Nat) : List Nat :=
  if c < 128 then [c]
  else if c < 2048 then [192 + c / 64, 128 + c % 64]
  else if c < 65536 then [224 + c / 4096, 128 + (c / 64) % 64, 128 + c % 64]
  else [240 + c / 262144, 128 + (c / 4096) % 64, 128 + (c / 64) % 64, 128 + c % 64]

/-- Uppercase hexadecimal digit, as `encodeURIComponent` emits. -/
def hexDigit (n : Nat) : Char :=
  if n < 10 then Char.ofNat (48 + n) else Char.ofNat (55 + n)

/-- `%XY` escape of one byte. -/
def percentByte (b : Nat) : List Char := ['%', hexDigit (b / 16), hexDigit (b % 16)]

/-- One character's contribution to `encodeURIComponent`'s output. -/
def encodeChar (c : Char) : List Char :=
  if isUnescapedJS c then [c]
  else (utf8Encode c.toNat).flatMap percentByte

/-- `encodeURIComponent` over a whole string. -/
def encodeURIComponentModel (s : String) : String := ⟨s.data.flatMap encodeChar⟩

/-- `export function encodePathParam(value) { return
encodeURIComponent(value); }`. -/
def encodePathParam (s : String) : String := encodeURIComponentModel s

/-- Value of a hexadecimal digit (either case), `none` otherwise. -/
def hexVal (c : Char) : Option Nat :=
  let n := c.toNat
  if 48 ≤ n && n ≤ 57 then some (n - 48)
  else if 65 ≤ n && n ≤ 70 then some (n - 55)
  else if 97 ≤ n && n ≤ 102 then some (n - 87)
  else none

/-- First pass of the standard component decoder: `%XY` escapes become
bytes, unescaped characters contribute their UTF-8 bytes. -/
def toBytes : List Char → Option (List Nat)
  | [] => some []
  | c :: rest =>
    if c = '%' then
      match rest with
      | h1 :: h2 :: rest2 =>
        match hexVal h1, hexVal h2 with
        | some a, some b => (toBytes rest2).map (fun bs => (a * 16 + b) :: bs)
        | _, _ => none
      | _ => none
    else (toBytes rest).map (fun bs => utf8Encode c.toNat ++ bs)

/-- Decode one UTF-8 scalar: the lead byte's range determines how many
continuation bytes to take; returns the code point and the remaining
bytes (lenient on continuation-byte ranges; exact on `utf8Encode`
output). -/
def decodeOne (b : Nat) (rest : List Nat) : Option (Nat × List Nat) :=
  if b < 128 then some (b, rest)
  else if b < 224 then
    match rest with
    | b1 :: rest2 => some ((b - 192) * 64 + (b1 - 128), rest2)
    | [] => none
  else if b < 240 then
    match rest with
    | b1 :: b2 :: rest2 => some ((b - 224) * 4096 + (b1 - 128) * 64 + (b2 - 128), rest2)
    | _ => none
  else
    match rest with
    | b1 :: b2 :: b3 :: rest2 =>
      some ((b - 240) * 262144 + (b1 - 128) * 4096 + (b2 - 128) * 64 + (b3 - 128), rest2)
    | _ => none

/-- UTF-8 decoding of a byte list back into code points, fuelled by the
list length (each scalar consumes at least one byte, so the length is
always enough fuel). -/
def utf8DecodeFuel : Nat → List Nat → Option (List Nat)
  | _, [] => some []
  | 0, _ :: _ => none
  | fuel + 1, b :: rest =>
    match decodeOne b rest with
    | none => none
    | some cr => (utf8DecodeFuel fuel cr.2).map (fun cs => cr.1 :: cs)

/-- UTF-8 decoding of a byte list back into code points. -/
def utf8Decode (l : List Nat) : Option (List Nat) := utf8DecodeFuel l.length l

/-- The standard component decoder (`decodeURIComponent` restricted to the
inputs it accepts): percent-unescape to bytes, decode UTF-8, rebuild the
string. -/
def decodeURIComponentModel (s : String) : Option String :=
  ((toBytes s.data).bind utf8Decode).map (fun cs => ⟨cs.map Char.ofNat⟩)

/-- The reserved characters of RFC 3986 (gen-delims and sub-delims). -/
def rfc3986Reserved : List Char :=
  [':', '/', '?', '#', '[', ']', '@', '!', '$', '&', '\'', '(', ')', '*', '+', ',', ';', '=']

/-! ## Theorems -/

theorem one_le_jsMax_one (b : Rat) : (1 : Rat) ≤ jsMax 1 b := by
  unfold jsMax
  split
  · linarith
  · exact le_refl 1

theorem grantedIds_append (a b : List RLEvent) :
    grantedIds (a ++ b) = grantedIds a ++ grantedIds b :=
  List.filterMap_append ..

theorem cancelledIds_append (a b : List RLEvent) :
    cancelledIds (a ++ b) = cancelledIds a ++ cancelledIds b :=
  List.filterMap_append ..

theorem grantedIds_disposed (l : List (Nat × Bool)) :
    grantedIds (l.map fun p => RLEvent.rejectedDisposed p.1) = [] := by
  induction l with
  | nil => rfl
  | cons hd tl ih => simpa [grantedIds] using ih

theorem cancelledIds_disposed (l : List (Nat × Bool)) :
    cancelledIds (l.map fun p => RLEvent.rejectedDisposed p.1) = [] := by
  induction l with
  | nil => rfl
  | cons hd tl ih => simpa [cancelledIds] using ih

theorem drain_cons (t : Rat) (id : Nat) (ab : Bool) (tl : List (Nat × Bool)) :
    drain t ((id, ab) :: tl)
      = if 0 < t then
          if ab then
            ((drain t tl).1, (drain t tl).2.1,
              RLEvent.rejectedCancelled id :: (drain t tl).2.2)
          else
            ((drain (t - 1) tl).1, (drain (t - 1) tl).2.1,
              RLEvent.granted id :: (drain (t - 1) tl).2.2)
        else (t, (id, ab) :: tl, []) := rfl

/-- The refill loop splits the queue into a processed prefix and an
untouched suffix; grants are exactly the non-aborted prefix entries in
order, cancellations exactly the aborted ones. -/
theorem drain_split (t : Rat) (q : List (Nat × Bool)) :
    ∃ pre, q = pre ++ (drain t q).2.1
      ∧ grantedIds (drain t q).2.2 = (pre.filter (fun p => !p.2)).map Prod.fst
      ∧ cancelledIds (drain t q).2.2 = (pre.filter (fun p => p.2)).map Prod.fst := by
  induction q generalizing t with
  | nil => exact ⟨[], rfl, rfl, rfl⟩
  | cons hd tl ih =>
    obtain ⟨id, ab⟩ := hd
    by_cases h : 0 < t
    · cases ab
      · obtain ⟨pre, hq, hg, hc⟩ := ih (t - 1)
        refine ⟨(id, false) :: pre, ?_, ?_, ?_⟩
        · rw [drain_cons, if_pos h]
          show (id, false) :: tl = ((id, false) :: pre) ++ (drain (t - 1) tl).2.1
          rw [List.cons_append]
          exact congrArg _ hq
        · rw [drain_cons, if_pos h]
          show grantedIds (RLEvent.granted id :: (drain (t - 1) tl).2.2) = _
          simp only [grantedIds, List.filterMap_cons, List.filter_cons] at hg ⊢
          simp [hg]
        · rw [drain_cons, if_pos h]
          show cancelledIds (RLEvent.granted id :: (drain (t - 1) tl).2.2) = _
          simp only [cancelledIds, List.filterMap_cons, List.filter_cons] at hc ⊢
          simp [hc]
      · obtain ⟨pre, hq, hg, hc⟩ := ih t
        refine ⟨(id, true) :: pre, ?_, ?_, ?_⟩
        · rw [drain_cons, if_pos h]
          show (id, true) :: tl = ((id, true) :: pre) ++ (drain t tl).2.1
          rw [List.cons_append]
          exact congrArg _ hq
        · rw [drain_cons, if_pos h]
          show grantedIds (RLEvent.rejectedCancelled id :: (drain t tl).2.2) = _
          simp only [grantedIds, List.filterMap_cons, List.filter_cons] at hg ⊢
          simp [hg]
        · rw [drain_cons, if_pos h]
          show cancelledIds (RLEvent.rejectedCancelled id :: (drain t tl).2.2) = _
          simp only [cancelledIds, List.filterMap_cons, List.filter_cons] at hc ⊢
          simp [hc]
    · refine ⟨[], ?_, ?_, ?_⟩
      · rw [drain_cons, if_neg h]
        rfl
      · rw [drain_cons, if_neg h]
        rfl
      · rw [drain_cons, if_neg h]
        rfl

/-- The refill loop stops with positive tokens only when the queue is
exhausted. -/
theorem drain_pos (t : Rat) (q : List (Nat × Bool)) :
    0 < (drain t q).1 → (drain t q).2.1 = [] := by
  induction q generalizing t with
  | nil => intro _; rfl
  | cons hd tl ih =>
    obtain ⟨id, ab⟩ := hd
    by_cases h : 0 < t
    · cases ab
      · rw [drain_cons, if_pos h]
        exact ih (t - 1)
      · rw [drain_cons, if_pos h]
        exact ih t
    · rw [drain_cons, if_neg h]
      intro hpos
      exact absurd hpos h

theorem stepRL_cap (s : RLState) (op : RLOp) : (stepRL s op).1.cap = s.cap := by
  cases op with
  | acquire ab =>
    cases ab
    · by_cases ht : 0 < s.tokens <;> simp [stepRL, ht]
    · simp [stepRL]
  | fireAbort id =>
    by_cases hq : s.queue.any (fun p => p.1 == id) <;> simp [stepRL, hq]
  | markAborted id => simp [stepRL]
  | refillTick =>
    by_cases hd : s.disposed <;> simp [stepRL, hd]
  | dispose => simp [stepRL]

theorem stepRL_le_cap {s : RLState} (op : RLOp) (h : s.tokens ≤ s.cap) :
    (stepRL s op).1.tokens ≤ (stepRL s op).1.cap := by
  rw [stepRL_cap]
  cases op with
  | acquire ab =>
    cases ab
    · by_cases ht : 0 < s.tokens
      · simp only [stepRL, if_pos ht]
        show s.tokens - 1 ≤ s.cap
        linarith
      · simp [stepRL, ht]
        exact h
    · simp [stepRL]
      exact h
  | fireAbort id =>
    by_cases hq : s.queue.any (fun p => p.1 == id) <;> simp [stepRL, hq] <;> exact h
  | markAborted id =>
    simp [stepRL]
    exact h
  | refillTick =>
    by_cases hd : s.disposed
    · simp [stepRL, hd]
      exact h
    · have htok : (stepRL s RLOp.refillTick).1.tokens
          = (if s.cap < (drain (if s.tokens < s.cap then s.tokens + 1 else s.tokens) s.queue).1
              then s.cap
              else (drain (if s.tokens < s.cap then s.tokens + 1 else s.tokens) s.queue).1) := by
        simp only [stepRL]
        rw [if_neg hd]
      rw [htok]
      split <;> split <;>
        first
          | exact le_refl _
          | exact le_of_not_lt (by assumption)
  | dispose =>
    simp [stepRL]
    exact h

theorem runRL_le_cap {s : RLState} (ops : List RLOp) (h : s.tokens ≤ s.cap) :
    (runRL s ops).1.tokens ≤ (runRL s ops).1.cap := by
  induction ops generalizing s with
  | nil => exact h
  | cons op ops ih => exact ih (stepRL_le_cap op h)

theorem drain_nat (k : Nat) (q : List (Nat × Bool)) :
    ∃ n : Nat, (drain (k : Rat) q).1 = (n : Rat) ∧ n ≤ k := by
  induction q generalizing k with
  | nil => exact ⟨k, rfl, le_refl k⟩
  | cons hd tl ih =>
    obtain ⟨id, ab⟩ := hd
    by_cases h : 0 < ((k : Nat) : Rat)
    · have hk : 1 ≤ k := by exact_mod_cast h
      cases ab
      · have h1 : ((k : Rat) - 1) = ((k - 1 : Nat) : Rat) := by
          rw [Nat.cast_sub hk]
          norm_num
        obtain ⟨n, hn, hle⟩ := ih (k - 1)
        refine ⟨n, ?_, le_trans hle (Nat.sub_le k 1)⟩
        rw [drain_cons, if_pos h]
        show (drain ((k : Rat) - 1) tl).1 = (n : Rat)
        rw [h1]
        exact hn
      · obtain ⟨n, hn, hle⟩ := ih k
        refine ⟨n, ?_, hle⟩
        rw [drain_cons, if_pos h]
        exact hn
    · exact ⟨k, by rw [drain_cons, if_neg h], le_refl k⟩

theorem stepRL_natTok {s : RLState} (op : RLOp) (hc : NatCap s) (h : NatTok s) :
    NatTok (stepRL s op).1 := by
  obtain ⟨m, hm⟩ := hc
  obtain ⟨k, hk, hkc⟩ := h
  cases op with
  | acquire ab =>
    cases ab
    · by_cases ht : 0 < s.tokens
      · have hk1 : 1 ≤ k := by
          rw [hk] at ht
          exact_mod_cast ht
        refine ⟨k - 1, ?_, ?_⟩
        · simp only [stepRL, if_pos ht]
          show s.tokens - 1 = ((k - 1 : Nat) : Rat)
          rw [hk, Nat.cast_sub hk1]
          norm_num
        · rw [stepRL_cap]
          simp only [stepRL, if_pos ht]
          show s.tokens - 1 ≤ s.cap
          linarith
      · exact ⟨k, by simp [stepRL, ht]; exact hk, by rw [stepRL_cap]; simp [stepRL, ht]; exact hkc⟩
    · exact ⟨k, by simp [stepRL]; exact hk, by rw [stepRL_cap]; simp [stepRL]; exact hkc⟩
  | fireAbort id =>
    by_cases hq : s.queue.any (fun p => p.1 == id) <;>
      exact ⟨k, by simp [stepRL, hq]; exact hk, by rw [stepRL_cap]; simp [stepRL, hq]; exact hkc⟩
  | markAborted id =>
    exact ⟨k, by simp [stepRL]; exact hk, by rw [stepRL_cap]; simp [stepRL]; exact hkc⟩
  | refillTick =>
    by_cases hd : s.disposed
    · exact ⟨k, by simp [stepRL, hd]; exact hk, by rw [stepRL_cap]; simp [stepRL, hd]; exact hkc⟩
    · have hcap : (stepRL s RLOp.refillTick).1.cap = s.cap := stepRL_cap s _
      -- the incremented count is still a natural number
      have hnat1 : ∃ k1 : Nat,
          (if s.tokens < s.cap then s.tokens + 1 else s.tokens) = ((k1 : Nat) : Rat) := by
        by_cases hlt : s.tokens < s.cap
        · exact ⟨k + 1, by rw [if_pos hlt, hk]; push_cast; ring⟩
        · exact ⟨k, by rw [if_neg hlt]; exact hk⟩
      obtain ⟨k1, hk1⟩ := hnat1
      obtain ⟨n, hn, _⟩ := drain_nat k1 s.queue
      have htok : (stepRL s RLOp.refillTick).1.tokens
          = (if s.cap < (drain (if s.tokens < s.cap then s.tokens + 1 else s.tokens) s.queue).1
              then s.cap
              else (drain (if s.tokens < s.cap then s.tokens + 1 else s.tokens) s.queue).1) := by
        simp only [stepRL]
        rw [if_neg hd]
      rw [hk1, hn] at htok
      by_cases hsc : s.cap < ((n : Nat) : Rat)
      · refine ⟨m, ?_, ?_⟩
        · rw [htok, if_pos hsc]
          exact hm
        · rw [htok, if_pos hsc, hcap]
      · refine ⟨n, ?_, ?_⟩
        · rw [htok, if_neg hsc]
        · rw [htok, if_neg hsc, hcap]
          exact le_of_not_lt hsc
  | dispose =>
    exact ⟨k, by simp [stepRL]; exact hk, by rw [stepRL_cap]; simp [stepRL]; exact hkc⟩

theorem runRL_natTok {s : RLState} (ops : List RLOp) (hc : NatCap s) (h : NatTok s) :
    NatTok (runRL s ops).1 := by
  induction ops generalizing s with
  | nil => exact h
  | cons op ops ih =>
    obtain ⟨m, hm⟩ := hc
    exact ih ⟨m, by rw [stepRL_cap]; exact hm⟩ (stepRL_natTok op ⟨m, hm⟩ h)

theorem queueIds_mark (q : List (Nat × Bool)) (id : Nat) :
    (q.map fun p => if p.1 == id then (p.1, true) else p).map Prod.fst
      = q.map Prod.fst := by
  induction q with
  | nil => rfl
  | cons hd tl ih =>
    simp only [List.map_cons, ih]
    congr 1
    split <;> rfl

theorem map_fst_filter_subset (f : Nat × Bool → Bool) (l : List (Nat × Bool)) :
    ∀ x ∈ (l.filter f).map Prod.fst, x ∈ l.map Prod.fst := fun x hx =>
  List.Sublist.subset ((l.filter_sublist).map Prod.fst) hx

theorem not_mem_eraseP_fst {q : List (Nat × Bool)} {id : Nat}
    (hnd : (q.map Prod.fst).Nodup) :
    id ∉ (q.eraseP (fun p => p.1 == id)).map Prod.fst := by
  induction q with
  | nil => simp
  | cons hd tl ih =>
    obtain ⟨k, b⟩ := hd
    simp only [List.map_cons, List.nodup_cons] at hnd
    by_cases hk : k = id
    · subst hk
      rw [List.eraseP_cons_of_pos (by simp)]
      exact hnd.1
    · rw [List.eraseP_cons_of_neg (by simp [hk])]
      simp only [List.map_cons, List.mem_cons, not_or]
      exact ⟨fun hcon => hk hcon.symm, ih hnd.2⟩

theorem filter_fst_disjoint {l : List (Nat × Bool)} (hnd : (l.map Prod.fst).Nodup) {x : Nat}
    (h1 : x ∈ (l.filter fun p => !p.2).map Prod.fst) :
    x ∉ (l.filter fun p => p.2).map Prod.fst := by
  induction l with
  | nil => simp at h1
  | cons hd tl ih =>
    obtain ⟨k, b⟩ := hd
    simp only [List.map_cons, List.nodup_cons] at hnd
    cases b
    · have hl : ((k, false) :: tl).filter (fun p => !p.2)
          = (k, false) :: tl.filter (fun p => !p.2) := by
        simp [List.filter_cons]
      have hr : ((k, false) :: tl).filter (fun p => p.2)
          = tl.filter (fun p => p.2) := by
        simp [List.filter_cons]
      rw [hl, List.map_cons] at h1
      rw [hr]
      rcases List.mem_cons.mp h1 with rfl | hmem
      · intro hcon
        exact hnd.1 (map_fst_filter_subset _ tl _ hcon)
      · exact ih hnd.2 hmem
    · have hl : ((k, true) :: tl).filter (fun p => !p.2)
          = tl.filter (fun p => !p.2) := by
        simp [List.filter_cons]
      have hr : ((k, true) :: tl).filter (fun p => p.2)
          = (k, true) :: tl.filter (fun p => p.2) := by
        simp [List.filter_cons]
      rw [hl] at h1
      rw [hr]
      simp only [List.map_cons, List.mem_cons, not_or]
      refine ⟨?_, ih hnd.2 h1⟩
      rintro rfl
      exact hnd.1 (map_fst_filter_subset _ tl _ h1)

theorem mem_queueIds_of_any {s : RLState} {id : Nat}
    (h : s.queue.any (fun p => p.1 == id) = true) : id ∈ queueIds s := by
  rw [List.any_eq_true] at h
  obtain ⟨p, hp, he⟩ := h
  rw [beq_iff_eq] at he
  exact he ▸ List.mem_map_of_mem Prod.fst hp

theorem stepRL_inv {s : RLState} {g c : List Nat} (op : RLOp) (h : RLInv s g c) :
    RLInv (stepRL s op).1 (g ++ grantedIds (stepRL s op).2)
      (c ++ cancelledIds (stepRL s op).2) := by
  obtain ⟨qS, qB, gS, gB, cB, gQ, gc, cq, tP, cP⟩ := h
  cases op with
  | acquire ab =>
    cases ab
    · by_cases ht : 0 < s.tokens
      · -- immediate synchronous grant: the queue is empty here
        have hqe : s.queue = [] := tP ht
        have hstep : stepRL s (RLOp.acquire false)
            = ({ s with tokens := s.tokens - 1, nextId := s.nextId + 1 },
                [RLEvent.granted s.nextId]) := by
          simp [stepRL, ht]
        rw [hstep]
        simp only [grantedIds, cancelledIds, List.filterMap_cons, List.filterMap_nil,
          List.append_nil]
        refine ⟨?_, ?_, ?_, ?_, ?_, ?_, ?_, ?_, ?_, cP⟩
        · simp [queueIds, hqe]
        · simp [queueIds, hqe]
        · refine List.pairwise_append.mpr ⟨gS, List.pairwise_singleton _ _, ?_⟩
          intro a ha b hb
          rw [List.mem_singleton] at hb
          subst hb
          exact gB a ha
        · intro i hi
          rcases List.mem_append.mp hi with h1 | h2
          · exact Nat.lt_succ_of_lt (gB i h1)
          · rw [List.mem_singleton] at h2
            subst h2
            exact Nat.lt_succ_self _
        · exact fun i hi => Nat.lt_succ_of_lt (cB i hi)
        · simp [queueIds, hqe]
        · intro i hi
          rcases List.mem_append.mp hi with h1 | h2
          · exact gc i h1
          · rw [List.mem_singleton] at h2
            subst h2
            exact fun hcon => Nat.lt_irrefl _ (cB _ hcon)
        · simp [queueIds, hqe]
        · intro _
          exact hqe
      · -- no token: enqueue at the tail
        have hstep : stepRL s (RLOp.acquire false)
            = ({ s with queue := s.queue ++ [(s.nextId, false)], nextId := s.nextId + 1 },
                []) := by
          simp [stepRL, ht]
        rw [hstep]
        simp only [grantedIds, cancelledIds, List.filterMap_nil, List.append_nil]
        have hids : queueIds { s with queue := s.queue ++ [(s.nextId, false)], nextId := s.nextId + 1 } = queueIds s ++ [s.nextId] := by
          simp [queueIds]
        refine ⟨?_, ?_, gS, ?_, ?_, ?_, gc, ?_, ?_, cP⟩
        · rw [hids]
          refine List.pairwise_append.mpr ⟨qS, List.pairwise_singleton _ _, ?_⟩
          intro a ha b hb
          rw [List.mem_singleton] at hb
          subst hb
          exact qB a ha
        · rw [hids]
          intro i hi
          rcases List.mem_append.mp hi with h1 | h2
          · exact Nat.lt_succ_of_lt (qB i h1)
          · rw [List.mem_singleton] at h2
            subst h2
            exact Nat.lt_succ_self _
        · exact fun i hi => Nat.lt_succ_of_lt (gB i hi)
        · exact fun i hi => Nat.lt_succ_of_lt (cB i hi)
        · rw [hids]
          intro i hi j hj
          rcases List.mem_append.mp hj with h1 | h2
          · exact gQ i hi j h1
          · rw [List.mem_singleton] at h2
            subst h2
            exact gB i hi
        · rw [hids]
          intro i hi
          rw [List.mem_append, List.mem_singleton]
          rintro (hcon | rfl)
          · exact cq i hi hcon
          · exact Nat.lt_irrefl _ (cB _ hi)
        · intro hcon
          exact absurd hcon ht
    · -- signal already aborted: synchronous rejection, state untouched
      have hstep : stepRL s (RLOp.acquire true)
          = ({ s with nextId := s.nextId + 1 }, [RLEvent.rejectedCancelled s.nextId]) := by
        simp [stepRL]
      rw [hstep]
      simp only [grantedIds, cancelledIds, List.filterMap_cons, List.filterMap_nil,
        List.append_nil]
      refine ⟨qS, ?_, gS, ?_, ?_, gQ, ?_, ?_, tP, cP⟩
      · exact fun i hi => Nat.lt_succ_of_lt (qB i hi)
      · exact fun i hi => Nat.lt_succ_of_lt (gB i hi)
      · intro i hi
        rcases List.mem_append.mp hi with h1 | h2
        · exact Nat.lt_succ_of_lt (cB i h1)
        · rw [List.mem_singleton] at h2
          subst h2
          exact Nat.lt_succ_self _
      · intro i hi
        rw [List.mem_append, List.mem_singleton, not_or]
        exact ⟨gc i hi, fun hcon => Nat.lt_irrefl _ (hcon ▸ gB i hi)⟩
      · intro i hi
        rcases List.mem_append.mp hi with h1 | h2
        · exact cq i h1
        · rw [List.mem_singleton] at h2
          subst h2
          exact fun hcon => Nat.lt_irrefl _ (qB _ hcon)
  | fireAbort id =>
    by_cases hq : s.queue.any (fun p => p.1 == id) = true
    · have hidq : id ∈ queueIds s := mem_queueIds_of_any hq
      have hnd : (queueIds s).Nodup := qS.imp (fun hab => ne_of_lt hab)
      have hstep : stepRL s (RLOp.fireAbort id)
          = ({ s with queue := s.queue.eraseP (fun p => p.1 == id) },
              [RLEvent.rejectedCancelled id]) := by
        simp [stepRL, hq]
      rw [hstep]
      simp only [grantedIds, cancelledIds, List.filterMap_cons, List.filterMap_nil,
        List.append_nil]
      have hsub : ∀ x ∈ (s.queue.eraseP (fun p => p.1 == id)).map Prod.fst,
          x ∈ queueIds s := fun x hx =>
        List.Sublist.subset ((s.queue.eraseP_sublist).map Prod.fst) hx
      refine ⟨?_, ?_, gS, gB, ?_, ?_, ?_, ?_, ?_, cP⟩
      · exact List.Pairwise.sublist ((s.queue.eraseP_sublist).map Prod.fst) qS
      · exact fun i hi => qB i (hsub i hi)
      · intro i hi
        rcases List.mem_append.mp hi with h1 | h2
        · exact cB i h1
        · rw [List.mem_singleton] at h2
          subst h2
          exact qB _ hidq
      · exact fun i hi j hj => gQ i hi j (hsub j hj)
      · intro i hi
        rw [List.mem_append, List.mem_singleton, not_or]
        exact ⟨gc i hi, fun hcon => Nat.lt_irrefl _ (hcon ▸ gQ i hi id hidq)⟩
      · intro i hi
        rcases List.mem_append.mp hi with h1 | h2
        · exact fun hcon => cq i h1 (hsub i hcon)
        · rw [List.mem_singleton] at h2
          subst h2
          exact not_mem_eraseP_fst hnd
      · intro h0
        show s.queue.eraseP (fun p => p.1 == id) = []
        rw [tP h0]
        rfl
    · have hstep : stepRL s (RLOp.fireAbort id) = (s, []) := by
        simp [stepRL, hq]
      rw [hstep]
      simp only [grantedIds, cancelledIds, List.filterMap_nil, List.append_nil]
      exact ⟨qS, qB, gS, gB, cB, gQ, gc, cq, tP, cP⟩
  | markAborted id =>
    have hstep : stepRL s (RLOp.markAborted id)
        = ({ s with queue := s.queue.map (fun p => if p.1 == id then (p.1, true) else p) },
            []) := by
      simp [stepRL]
    rw [hstep]
    simp only [grantedIds, cancelledIds, List.filterMap_nil, List.append_nil]
    have hids : queueIds { s with queue := s.queue.map (fun p => if p.1 == id then (p.1, true) else p) } = queueIds s := queueIds_mark s.queue id
    refine ⟨?_, ?_, gS, gB, cB, ?_, gc, ?_, ?_, cP⟩
    · rw [hids]
      exact qS
    · rw [hids]
      exact qB
    · rw [hids]
      exact gQ
    · rw [hids]
      exact cq
    · intro h0
      show s.queue.map _ = []
      rw [tP h0]
      rfl
  | refillTick =>
    by_cases hd : s.disposed
    · have hstep : stepRL s RLOp.refillTick = (s, []) := by
        simp [stepRL, hd]
      rw [hstep]
      simp only [grantedIds, cancelledIds, List.filterMap_nil, List.append_nil]
      exact ⟨qS, qB, gS, gB, cB, gQ, gc, cq, tP, cP⟩
    · have hstep : stepRL s RLOp.refillTick
          = ({ s with
                tokens := if s.cap <
                    (drain (if s.tokens < s.cap then s.tokens + 1 else s.tokens) s.queue).1
                  then s.cap
                  else (drain (if s.tokens < s.cap then s.tokens + 1 else s.tokens) s.queue).1,
                queue := (drain (if s.tokens < s.cap then s.tokens + 1 else s.tokens) s.queue).2.1 },
              (drain (if s.tokens < s.cap then s.tokens + 1 else s.tokens) s.queue).2.2) := by
        simp only [stepRL]
        rw [if_neg hd]
      rw [hstep]
      obtain ⟨pre, hsp, hg, hc2⟩ :=
        drain_split (if s.tokens < s.cap then s.tokens + 1 else s.tokens) s.queue
      rw [hg, hc2]
      have hpos := drain_pos (if s.tokens < s.cap then s.tokens + 1 else s.tokens) s.queue
      generalize hq2 : (drain (if s.tokens < s.cap then s.tokens + 1 else s.tokens) s.queue).2.1
          = q2 at hsp hpos ⊢
      -- decompose the sortedness of the old queue along the split
      have hqids : queueIds s = pre.map Prod.fst ++ q2.map Prod.fst := by
        rw [queueIds, hsp, List.map_append]
      rw [hqids] at qS qB gQ cq
      obtain ⟨pwPre, pwQ2, cross⟩ := List.pairwise_append.mp qS
      have hndPre : (pre.map Prod.fst).Nodup :=
        pwPre.imp (fun hab => ne_of_lt hab)
      have hgsub : ∀ x ∈ (pre.filter (fun p => !p.2)).map Prod.fst, x ∈ pre.map Prod.fst :=
        map_fst_filter_subset _ pre
      have hcsub : ∀ x ∈ (pre.filter (fun p => p.2)).map Prod.fst, x ∈ pre.map Prod.fst :=
        map_fst_filter_subset _ pre
      refine ⟨pwQ2, ?_, ?_, ?_, ?_, ?_, ?_, ?_, ?_, cP⟩
      · exact fun i hi => qB i (List.mem_append.mpr (Or.inr hi))
      · refine List.pairwise_append.mpr ⟨gS, ?_, ?_⟩
        · exact List.Pairwise.sublist ((pre.filter_sublist).map Prod.fst) pwPre
        · intro a ha b hb
          exact gQ a ha b (List.mem_append.mpr (Or.inl (hgsub b hb)))
      · intro i hi
        rcases List.mem_append.mp hi with h1 | h2
        · exact gB i h1
        · exact qB i (List.mem_append.mpr (Or.inl (hgsub i h2)))
      · intro i hi
        rcases List.mem_append.mp hi with h1 | h2
        · exact cB i h1
        · exact qB i (List.mem_append.mpr (Or.inl (hcsub i h2)))
      · intro i hi j hj
        rcases List.mem_append.mp hi with h1 | h2
        · exact gQ i h1 j (List.mem_append.mpr (Or.inr hj))
        · exact cross i (hgsub i h2) j hj
      · intro i hi
        rw [List.mem_append, not_or]
        rcases List.mem_append.mp hi with h1 | h2
        · refine ⟨gc i h1, fun hcon => ?_⟩
          exact Nat.lt_irrefl _ (gQ i h1 i (List.mem_append.mpr (Or.inl (hcsub i hcon))))
        · refine ⟨fun hcon => cq i hcon (List.mem_append.mpr (Or.inl (hgsub i h2))), ?_⟩
          exact filter_fst_disjoint hndPre h2
      · intro i hi
        rw [queueIds]
        rcases List.mem_append.mp hi with h1 | h2
        · exact fun hcon => cq i h1 (List.mem_append.mpr (Or.inr hcon))
        · intro hcon
          exact Nat.lt_irrefl _ (cross i (hcsub i h2) i hcon)
      · intro h0
        show q2 = []
        have h0' : 0 < (if s.cap <
            (drain (if s.tokens < s.cap then s.tokens + 1 else s.tokens) s.queue).1
            then s.cap
            else (drain (if s.tokens < s.cap then s.tokens + 1 else s.tokens) s.queue).1) := h0
        by_cases hcd : s.cap <
            (drain (if s.tokens < s.cap then s.tokens + 1 else s.tokens) s.queue).1
        · exact hpos (lt_trans (lt_of_lt_of_le one_pos cP) hcd)
        · rw [if_neg hcd] at h0'
          exact hpos h0'
  | dispose =>
    have hstep : stepRL s RLOp.dispose
        = ({ s with queue := [], disposed := true },
            s.queue.map (fun p => RLEvent.rejectedDisposed p.1)) := by
      simp [stepRL]
    rw [hstep]
    rw [grantedIds_disposed, cancelledIds_disposed]
    simp only [List.append_nil]
    refine ⟨?_, ?_, gS, gB, cB, ?_, gc, ?_, ?_, cP⟩
    · simp [queueIds]
    · simp [queueIds]
    · simp [queueIds]
    · simp [queueIds]
    · intro _
      rfl

theorem runRL_inv {s : RLState} {g c : List Nat} (ops : List RLOp) (h : RLInv s g c) :
    RLInv (runRL s ops).1 (g ++ grantedIds (runRL s ops).2)
      (c ++ cancelledIds (runRL s ops).2) := by
  induction ops generalizing s g c with
  | nil => simpa [runRL, grantedIds, cancelledIds] using h
  | cons op ops ih =>
    have hrun : runRL s (op :: ops)
        = ((runRL (stepRL s op).1 ops).1,
            (stepRL s op).2 ++ (runRL (stepRL s op).1 ops).2) := rfl
    rw [hrun]
    simp only [grantedIds_append, cancelledIds_append, ← List.append_assoc]
    exact ih (stepRL_inv op h)

/-- **C10.**  For every `RateLimiterOptions` input (zero and negative values
included), the constructor clamps `tokensPerInterval` (default 100) and
`intervalMs` (default 60000) to a minimum of 1, so the capacity is at least
1 and the refill cadence `intervalMs / tokensPerInterval` is strictly
positive — in particular the refill division is never by zero. -/
theorem C10_constructor_clamps (topt iopt : Option Rat) :
    1 ≤ rlTokensPerInterval topt ∧ 1 ≤ rlIntervalMs iopt ∧
      rlTokensPerInterval topt ≠ 0 ∧ 0 < rlRefillInterval topt iopt ∧
      rlTokensPerInterval none = 100 ∧ rlIntervalMs none = 60000 := by
  have hmax : ∀ b : Rat, (1 : Rat) ≤ jsMax 1 b := by
    intro b
    unfold jsMax
    split
    · linarith
    · exact le_refl 1
  have ht : (1 : Rat) ≤ rlTokensPerInterval topt := hmax _
  have hi : (1 : Rat) ≤ rlIntervalMs iopt := hmax _
  have ht0 : (0 : Rat) < rlTokensPerInterval topt := lt_of_lt_of_le one_pos ht
  refine ⟨ht, hi, ne_of_gt ht0, ?_, by decide, by decide⟩
  exact div_pos (lt_of_lt_of_le one_pos hi) ht0

/-- **C6.**  Calling `acquire` with an already-aborted signal rejects
immediately with the abort error (the spec's CancelledError) before any
queuing, consumes no token and leaves tokens and queue unchanged (only the
model's arrival counter advances); consequently, when a token is available
a subsequent immediate `acquire()` is granted synchronously. -/
theorem C6_acquire_already_cancelled (s : RLState) :
    stepRL s (RLOp.acquire true)
        = ({ s with nextId := s.nextId + 1 }, [RLEvent.rejectedCancelled s.nextId])
    ∧ (stepRL s (RLOp.acquire true)).1.tokens = s.tokens
    ∧ (stepRL s (RLOp.acquire true)).1.queue = s.queue
    ∧ (0 < s.tokens →
        stepRL (stepRL s (RLOp.acquire true)).1 (RLOp.acquire false)
          = ({ s with tokens := s.tokens - 1, nextId := s.nextId + 2 },
              [RLEvent.granted (s.nextId + 1)])) := by
  refine ⟨rfl, rfl, rfl, fun h => ?_⟩
  simp [stepRL, h]

/-- Witness for `C6_acquire_already_cancelled` at a freshly constructed
default limiter (100 tokens available). -/
theorem C6_acquire_already_cancelled_witness :
    0 < (initRL none none).tokens ∧
      stepRL (stepRL (initRL none none) (RLOp.acquire true)).1 (RLOp.acquire false)
        = ({ initRL none none with tokens := (initRL none none).tokens - 1, nextId := 2 },
            [RLEvent.granted 1]) := by
  have h : 0 < (initRL none none).tokens := by decide
  exact ⟨h, (C6_acquire_already_cancelled (initRL none none)).2.2.2 h⟩

/-- **C3, counterexample.**  The claim says that after `dispose()` every
subsequent `acquire()` fails and no further token is granted.  On the code,
a limiter built with `tokensPerInterval = 1` that is disposed and then
asked to `acquire()` grants a token immediately: `dispose()` only stops the
timer and flushes the queue, it does not guard `acquire`. -/
theorem C3_counterexample :
    (runRL (initRL (some 1) none) [RLOp.dispose, RLOp.acquire false]).2
      = [RLEvent.granted 0] := by decide

/-- **C3, amended.**  `dispose()` rejects every still-queued acquisition
with the disposal error, in queue order, and empties the queue; it is
idempotent (a second `dispose()` changes nothing and rejects nobody); after
it no refill tick can fire (so no *queued* waiter can ever be granted);
but the limiter is not rendered unusable: a subsequent `acquire()` still
succeeds synchronously whenever tokens remain. -/
theorem C3_dispose_amended (s : RLState) :
    (stepRL s RLOp.dispose).2 = (queueIds s).map RLEvent.rejectedDisposed
    ∧ (stepRL s RLOp.dispose).1.queue = []
    ∧ stepRL (stepRL s RLOp.dispose).1 RLOp.dispose = ((stepRL s RLOp.dispose).1, [])
    ∧ stepRL (stepRL s RLOp.dispose).1 RLOp.refillTick = ((stepRL s RLOp.dispose).1, [])
    ∧ (0 < s.tokens →
        (stepRL (stepRL s RLOp.dispose).1 (RLOp.acquire false)).2
          = [RLEvent.granted s.nextId]) := by
  refine ⟨?_, rfl, rfl, rfl, fun h => ?_⟩
  · simp [stepRL, queueIds, List.map_map, Function.comp]
  · simp [stepRL, h]

/-- Witness for `C3_dispose_amended` on a one-token limiter. -/
theorem C3_dispose_amended_witness :
    0 < (initRL (some 1) none).tokens ∧
      (stepRL (stepRL (initRL (some 1) none) RLOp.dispose).1 (RLOp.acquire false)).2
        = [RLEvent.granted 0] := by
  have h : 0 < (initRL (some 1) none).tokens := by decide
  exact ⟨h, (C3_dispose_amended (initRL (some 1) none)).2.2.2.2 h⟩

/-- **C2, counterexample.**  The claim quantifies over *every*
`RateLimiterOptions` input, but with the fractional configuration
`tokensPerInterval = 5/2` (a legal `number`), three `acquire()` calls drive
the token count to `-1/2`: the guard `this.tokens > 0` passes at `1/2` and
the decrement overshoots, so the count does go negative. -/
theorem C2_counterexample :
    (runRL (initRL (some (5 / 2)) none)
        [RLOp.acquire false, RLOp.acquire false, RLOp.acquire false]).1.tokens
        = -(1 / 2)
    ∧ (runRL (initRL (some (5 / 2)) none)
        [RLOp.acquire false, RLOp.acquire false, RLOp.acquire false]).1.tokens < 0 := by
  constructor <;> norm_num [runRL, stepRL, initRL, rlTokensPerInterval, jsMax]

/-- **C1.**  In every operation sequence on one limiter (acquires with or
without cancellation, abort firings, refill ticks, disposals), tokens are
granted to non-cancelled waiters strictly in FIFO order of arrival and no
waiter is granted twice.  Arrival ids are consecutive arrival indices, so
FIFO order of arrival is the numeric order: the granted-id trace is
strictly increasing (hence duplicate-free — no waiter gets two tokens) and
disjoint from the cancelled-id trace (no cancelled waiter is granted). -/
theorem C1_fifo_grants (topt iopt : Option Rat) (ops : List RLOp) :
    (grantedIds (runRL (initRL topt iopt) ops).2).Pairwise (· < ·)
    ∧ (grantedIds (runRL (initRL topt iopt) ops).2).Nodup
    ∧ (grantedIds (runRL (initRL topt iopt) ops).2).inter
        (cancelledIds (runRL (initRL topt iopt) ops).2) = [] := by
  have hinit : RLInv (initRL topt iopt) [] [] := by
    refine ⟨?_, ?_, ?_, ?_, ?_, ?_, ?_, ?_, ?_, one_le_jsMax_one _⟩ <;>
      simp [queueIds, initRL]
  have hfin := runRL_inv ops hinit
  simp only [List.nil_append] at hfin
  refine ⟨hfin.gSorted, hfin.gSorted.imp (fun hab => ne_of_lt hab), ?_⟩
  rw [List.inter, List.filter_eq_nil_iff]
  intro a ha
  simpa using hfin.gcDisj a ha

/-- **C2, amended.**  The token count never exceeds the capacity, for every
configuration; and it never goes negative provided the clamped
`tokensPerInterval` is a whole number (as it is for every integer
configuration, the default included).  With a fractional
`tokensPerInterval` the count can go negative (see the counterexample). -/
theorem C2_token_bounds_amended (topt iopt : Option Rat) (ops : List RLOp) :
    (runRL (initRL topt iopt) ops).1.tokens ≤ (runRL (initRL topt iopt) ops).1.cap
    ∧ ((∃ n : Nat, rlTokensPerInterval topt = (n : Rat)) →
        0 ≤ (runRL (initRL topt iopt) ops).1.tokens) := by
  constructor
  · exact runRL_le_cap ops (le_refl _)
  · rintro ⟨n, hn⟩
    obtain ⟨k, hk, _⟩ :=
      runRL_natTok (s := initRL topt iopt) ops ⟨n, hn⟩ ⟨n, hn, by simp [initRL]⟩
    rw [hk]
    exact_mod_cast Nat.zero_le k

/-- Witness for `C2_token_bounds_amended`: the default configuration has
the whole-number capacity 100, and after one acquire the count is
non-negative. -/
theorem C2_token_bounds_amended_witness :
    0 ≤ (runRL (initRL none none) [RLOp.acquire false]).1.tokens :=
  (C2_token_bounds_amended none none [RLOp.acquire false]).2
    ⟨100, by norm_num [rlTokensPerInterval, jsMax]⟩

theorem jsMin_le_left (a b : Rat) : jsMin a b ≤ a := by
  unfold jsMin
  split
  · exact le_refl a
  · exact le_of_not_lt (by assumption)

theorem jsMin_le_right (a b : Rat) : jsMin a b ≤ b := by
  unfold jsMin
  split
  · exact le_of_lt (by assumption)
  · exact le_refl b

theorem jsMin_nonneg {a b : Rat} (ha : 0 ≤ a) (hb : 0 ≤ b) : 0 ≤ jsMin a b := by
  unfold jsMin
  split
  · exact ha
  · exact hb

theorem amendedMethodEligible_eq (a : Bool) (m : Option String) :
    amendedMethodEligible a m
      = (match m.map jsToUpper with
         | none => true
         | some u => (u == "") || IDEMPOTENT_METHODS.contains u || (a && u == "POST")) := by
  cases m with
  | none => rfl
  | some x =>
    show amendedMethodEligible a (some x)
        = ((jsToUpper x == "") || IDEMPOTENT_METHODS.contains (jsToUpper x)
            || (a && jsToUpper x == "POST"))
    simp only [amendedMethodEligible, IDEMPOTENT_METHODS, List.contains_cons,
      List.contains_nil]
    split_ifs with h0 h1 h2
    · simp [h0]
    · rcases h1 with h | h | h | h <;> simp [h]
    · simp [h2]
    · push_neg at h1
      obtain ⟨hg, hp, hpa, hdel⟩ := h1
      simp [h0, hg, hp, hpa, hdel, h2]

/-- **C4, counterexample.**  The claim says any method other than the four
idempotent ones and POST is "treated as retryable by default".  The code
does the opposite: a named non-idempotent method such as HEAD is *never*
retried — `shouldRetry` returns false for HEAD + 500 where the claim's
rule returns true.  (Only a missing/empty method falls into the
retry-by-default bucket.) -/
theorem C4_counterexample :
    shouldRetry false
        { method := some "HEAD", status := some 500, code := none, retryAllowed := true }
      = false
    ∧ claimedShouldRetry false
        { method := some "HEAD", status := some 500, code := none, retryAllowed := true }
      = true := by
  constructor <;> rfl

/-- **C4, amended.**  `shouldRetry(error)` returns true iff the effective
uppercased method is eligible — missing or empty methods retryable by
default, GET/PUT/PATCH/DELETE unconditionally, POST exactly when
`allowPostRetry`, every other named method never — AND (the status is 408,
429 or ≥ 500, OR the failure is a network-level error with no response);
any other 4xx is never retried (`statusRetryable` is false there and a
response rules out `isNetworkError`). -/
theorem C4_should_retry_amended (a : Bool) (e : RetryErr) :
    shouldRetry a e
      = (amendedMethodEligible a e.method
          && (statusRetryable e.status || (e.status.isNone && isNetworkError e))) := by
  obtain ⟨m, st, cd, ra⟩ := e
  rw [amendedMethodEligible_eq]
  show (if !(match (m.map jsToUpper) with
            | none => true
            | some u => (u == "") || IDEMPOTENT_METHODS.contains u || (a && u == "POST"))
        then false
        else if statusRetryable st then true
        else isNetworkError ⟨m, st, cd, ra⟩) = _
  generalize (match (m.map jsToUpper) with
    | none => true
    | some u => (u == "") || IDEMPOTENT_METHODS.contains u || (a && u == "POST")) = E
  cases st with
  | none =>
    generalize isNetworkError ⟨m, none, cd, ra⟩ = N
    cases E <;> cases N <;> rfl
  | some n =>
    generalize hS : statusRetryable (some n) = S
    cases E <;> cases S <;> rfl

/-- **C5, counterexample.**  A `Retry-After: -1` header (a finite numeric
value) makes the code return 0 — `Math.max(0, seconds*1000)` clamps below
before the cap — while the claim's formula `min(seconds × 1000, 8000)`
yields −1000; the claim omits the lower clamp on the seconds branch. -/
theorem C5_counterexample :
    computeRetryDelay 1 (RetryAfterVal.numeric (-1)) 0 0 = 0
    ∧ claimedRetryDelay 1 (RetryAfterVal.numeric (-1)) 0 0 = -1000
    ∧ computeRetryDelay 1 (RetryAfterVal.numeric (-1)) 0 0
        ≠ claimedRetryDelay 1 (RetryAfterVal.numeric (-1)) 0 0 := by
  refine ⟨?_, ?_, ?_⟩ <;>
    norm_num [computeRetryDelay, claimedRetryDelay, getRetryAfterDelay, jsMax, jsMin,
      MAX_DELAY_MS]

/-- **C5, amended.**  `computeRetryDelay(attemptNumber, error)` returns:
for a numeric `Retry-After` of `s` seconds, `min(max(0, s × 1000), 8000)`;
for an HTTP date, `min(max(0, date − now), 8000)` — both independent of
the attempt number (the formula does not mention it); otherwise
`e + rand·0.2·e` with `e = min(8000, 200·2^(attemptNumber−1))`, so for a
jitter draw `rand ∈ [0, 1)` the result never exceeds `8000 × 1.2` ms. -/
theorem C5_retry_delay_amended (n : Nat) (h : RetryAfterVal) (now : Int) (rand : Rat) :
    computeRetryDelay n h now rand = amendedRetryDelay n h now rand
    ∧ (0 ≤ rand → rand < 1 →
        computeRetryDelay n h now rand ≤ MAX_DELAY_MS * (6 / 5)) := by
  have hmax : (0 : Rat) ≤ MAX_DELAY_MS := by norm_num [MAX_DELAY_MS]
  have hbase : (0 : Rat) ≤ BASE_DELAY_MS * 2 ^ (n - 1) := by
    have h2 : (0 : Rat) < 2 ^ (n - 1) := by positivity
    have hb : (0 : Rat) < BASE_DELAY_MS := by norm_num [BASE_DELAY_MS]
    exact le_of_lt (mul_pos hb h2)
  have hexp0 : (0 : Rat) ≤ jsMin MAX_DELAY_MS (BASE_DELAY_MS * 2 ^ (n - 1)) :=
    jsMin_nonneg hmax hbase
  have hexp8 : jsMin MAX_DELAY_MS (BASE_DELAY_MS * 2 ^ (n - 1)) ≤ MAX_DELAY_MS :=
    jsMin_le_left _ _
  constructor
  · cases h <;> rfl
  · intro hr0 hr1
    cases h with
    | missing =>
      show jsMin MAX_DELAY_MS (BASE_DELAY_MS * 2 ^ (n - 1))
          + rand * jsMin MAX_DELAY_MS (BASE_DELAY_MS * 2 ^ (n - 1)) * (1 / 5)
          ≤ MAX_DELAY_MS * (6 / 5)
      have h1 : rand * jsMin MAX_DELAY_MS (BASE_DELAY_MS * 2 ^ (n - 1))
          ≤ jsMin MAX_DELAY_MS (BASE_DELAY_MS * 2 ^ (n - 1)) := by
        calc rand * jsMin MAX_DELAY_MS (BASE_DELAY_MS * 2 ^ (n - 1))
            ≤ 1 * jsMin MAX_DELAY_MS (BASE_DELAY_MS * 2 ^ (n - 1)) :=
              mul_le_mul_of_nonneg_right (le_of_lt hr1) hexp0
          _ = jsMin MAX_DELAY_MS (BASE_DELAY_MS * 2 ^ (n - 1)) := one_mul _
      linarith
    | unparseable =>
      show jsMin MAX_DELAY_MS (BASE_DELAY_MS * 2 ^ (n - 1))
          + rand * jsMin MAX_DELAY_MS (BASE_DELAY_MS * 2 ^ (n - 1)) * (1 / 5)
          ≤ MAX_DELAY_MS * (6 / 5)
      have h1 : rand * jsMin MAX_DELAY_MS (BASE_DELAY_MS * 2 ^ (n - 1))
          ≤ jsMin MAX_DELAY_MS (BASE_DELAY_MS * 2 ^ (n - 1)) := by
        calc rand * jsMin MAX_DELAY_MS (BASE_DELAY_MS * 2 ^ (n - 1))
            ≤ 1 * jsMin MAX_DELAY_MS (BASE_DELAY_MS * 2 ^ (n - 1)) :=
              mul_le_mul_of_nonneg_right (le_of_lt hr1) hexp0
          _ = jsMin MAX_DELAY_MS (BASE_DELAY_MS * 2 ^ (n - 1)) := one_mul _
      linarith
    | numeric s =>
      show jsMin (jsMax 0 (s * 1000)) MAX_DELAY_MS ≤ MAX_DELAY_MS * (6 / 5)
      have := jsMin_le_right (jsMax 0 (s * 1000)) MAX_DELAY_MS
      linarith
    | httpDate d =>
      show jsMin (jsMax 0 ((d - now : Int) : Rat)) MAX_DELAY_MS ≤ MAX_DELAY_MS * (6 / 5)
      have := jsMin_le_right (jsMax 0 ((d - now : Int) : Rat)) MAX_DELAY_MS
      linarith

/-- Witness for `C5_retry_delay_amended` at attempt 3 with jitter draw 0
and no Retry-After header. -/
theorem C5_retry_delay_amended_witness :
    (0 : Rat) ≤ 0 ∧ (0 : Rat) < 1 ∧
      computeRetryDelay 3 RetryAfterVal.missing 0 0 ≤ MAX_DELAY_MS * (6 / 5) :=
  ⟨le_refl 0, by norm_num,
    (C5_retry_delay_amended 3 RetryAfterVal.missing 0 0).2 (le_refl 0) (by norm_num)⟩

theorem lookup_cons' (q a b : String) (l : List (String × String)) :
    List.lookup q ((a, b) :: l) = if q = a then some b else List.lookup q l := by
  rw [List.lookup_cons]
  by_cases h : q = a
  · rw [if_pos h, show (q == a) = true from beq_iff_eq.mpr h]
  · rw [if_neg h, show (q == a) = false from beq_eq_false_iff_ne.mpr h]

theorem map_update_cons (k v a b : String) (t : List (String × String)) :
    ((a, b) :: t).map (fun p => if p.1 == k then (k, v) else p)
      = (if a = k then (k, v) else (a, b))
          :: t.map (fun p => if p.1 == k then (k, v) else p) := by
  show (if (a == k) = true then (k, v) else (a, b))
        :: t.map (fun p => if p.1 == k then (k, v) else p)
      = (if a = k then (k, v) else (a, b))
          :: t.map (fun p => if p.1 == k then (k, v) else p)
  by_cases h : a = k
  · rw [if_pos h, if_pos (beq_iff_eq.mpr h)]
  · rw [if_neg h, if_neg (by simp [h])]

theorem lookup_map_update_self {m : List (String × String)} {k v : String}
    (hany : m.any (fun p => p.1 == k) = true) :
    List.lookup k (m.map (fun p => if p.1 == k then (k, v) else p)) = some v := by
  induction m with
  | nil => simp at hany
  | cons p t ih =>
    obtain ⟨a, b⟩ := p
    rw [map_update_cons]
    by_cases hp : a = k
    · rw [if_pos hp, lookup_cons', if_pos rfl]
    · have ht : t.any (fun p => p.1 == k) = true := by
        simpa [List.any_cons, hp] using hany
      rw [if_neg hp, lookup_cons', if_neg (Ne.symm hp)]
      exact ih ht

theorem lookup_map_update_ne {t : List (String × String)} {k v q : String} (hq : q ≠ k) :
    List.lookup q (t.map (fun p => if p.1 == k then (k, v) else p)) = List.lookup q t := by
  induction t with
  | nil => rfl
  | cons p t ih =>
    obtain ⟨a, b⟩ := p
    by_cases hp : a = k
    · rw [map_update_cons, if_pos hp, lookup_cons', lookup_cons',
        if_neg hq, if_neg (fun hcon => hq (hcon.trans hp))]
      exact ih
    · rw [map_update_cons, if_neg hp, lookup_cons', lookup_cons']
      by_cases hqa : q = a
      · rw [if_pos hqa, if_pos hqa]
      · rw [if_neg hqa, if_neg hqa]
        exact ih

theorem lookup_append_self {m : List (String × String)} {k v : String}
    (hnone : m.any (fun p => p.1 == k) = false) :
    List.lookup k (m ++ [(k, v)]) = some v := by
  induction m with
  | nil => rw [List.nil_append, lookup_cons', if_pos rfl]
  | cons p t ih =>
    obtain ⟨a, b⟩ := p
    rw [List.any_cons] at hnone
    have h1 : ¬ a = k := by
      intro hcon
      rw [show ((a, b).1 == k) = true from beq_iff_eq.mpr hcon] at hnone
      simp at hnone
    have h2 : t.any (fun p => p.1 == k) = false := by
      rw [show ((a, b).1 == k) = false from beq_eq_false_iff_ne.mpr h1] at hnone
      simpa using hnone
    rw [List.cons_append, lookup_cons', if_neg (Ne.symm h1)]
    exact ih h2

theorem lookup_append_ne {m : List (String × String)} {k v q : String} (hq : q ≠ k) :
    List.lookup q (m ++ [(k, v)]) = List.lookup q m := by
  induction m with
  | nil =>
    rw [List.nil_append, lookup_cons', if_neg hq]
  | cons p t ih =>
    obtain ⟨a, b⟩ := p
    rw [List.cons_append, lookup_cons', lookup_cons']
    by_cases hqa : q = a
    · rw [if_pos hqa, if_pos hqa]
    · rw [if_neg hqa, if_neg hqa]
      exact ih

/-- `setHeader` behaves as a pointwise map update under lookup. -/
theorem lookup_setHeader (m : List (String × String)) (k v q : String) :
    List.lookup q (setHeader m k v) = if q = k then some v else List.lookup q m := by
  unfold setHeader
  by_cases hq : q = k
  · subst hq
    rw [if_pos rfl]
    cases hany : m.any (fun p => p.1 == q) with
    | true => rw [if_pos rfl]; exact lookup_map_update_self hany
    | false =>
      rw [if_neg (by simp [hany])]
      exact lookup_append_self hany
  · rw [if_neg hq]
    cases hany : m.any (fun p => p.1 == k) with
    | true => rw [if_pos rfl]; exact lookup_map_update_ne hq
    | false =>
      rw [if_neg (by simp [hany])]
      exact lookup_append_ne hq

/-- Folding the per-call headers over an accumulator: per key, the last
surviving per-call entry wins, else the accumulator's binding persists. -/
theorem lookup_foldl_setHeader (hs : List (String × HVal)) (m : List (String × String))
    (k : String) :
    List.lookup k (hs.foldl (fun acc kv =>
        match renderHVal kv.2 with
        | none => acc
        | some v => setHeader acc kv.1 v) m)
      = (match lastCallValue hs k with
         | some v => some v
         | none => List.lookup k m) := by
  induction hs generalizing m with
  | nil => rfl
  | cons kv t ih =>
    rw [List.foldl_cons, ih]
    cases hr : renderHVal kv.2 with
    | none =>
      show (match lastCallValue t k with
            | some v => some v
            | none => List.lookup k m) = _
      cases hl : lastCallValue t k <;> simp [lastCallValue, hl, hr]
    | some v =>
      show (match lastCallValue t k with
            | some w => some w
            | none => List.lookup k (setHeader m kv.1 v)) = _
      cases hl : lastCallValue t k with
      | some w => simp [lastCallValue, hl]
      | none =>
        rw [lookup_setHeader]
        have hlast : lastCallValue (kv :: t) k = if kv.1 = k then some v else none := by
          show (match lastCallValue t k with
                | some w => some w
                | none => if kv.1 = k then renderHVal kv.2 else none)
              = if kv.1 = k then some v else none
          rw [hl, hr]
        rw [hlast]
        by_cases hk : k = kv.1
        · rw [if_pos hk, if_pos hk.symm]
        · rw [if_neg hk, if_neg (fun hcon => hk hcon.symm)]

/-- The Authorization layer of the merge, per key. -/
theorem lookup_auth_layer (m : List (String × String)) (tok : Option String) (k : String) :
    List.lookup k (match tok with
      | some t => if t = "" then m else setHeader m "Authorization" ("Bearer " ++ t)
      | none => m)
      = (if truthy tok && (k == "Authorization") then tok.map (fun t => "Bearer " ++ t)
         else List.lookup k m) := by
  cases tok with
  | none => simp [truthy]
  | some t =>
    show List.lookup k (if t = "" then m else setHeader m "Authorization" ("Bearer " ++ t))
        = (if truthy (some t) && (k == "Authorization") then
             (some t).map (fun t => "Bearer " ++ t)
           else List.lookup k m)
    by_cases ht : t = ""
    · rw [if_pos ht, if_neg (by simp [truthy, ht])]
    · rw [if_neg ht, lookup_setHeader]
      by_cases hk : k = "Authorization"
      · rw [if_pos hk, if_pos (by simp [truthy, ht, hk])]
        rfl
      · rw [if_neg hk, if_neg (by simp [truthy, hk])]

/-- The Idempotency-Key layer of the merge, per key. -/
theorem lookup_idem_layer (m : List (String × String)) (ik : Option String) (k : String) :
    List.lookup k (match ik with
      | some s => if s = "" then m else setHeader m "Idempotency-Key" s
      | none => m)
      = (if truthy ik && (k == "Idempotency-Key") then ik else List.lookup k m) := by
  cases ik with
  | none => simp [truthy]
  | some s =>
    show List.lookup k (if s = "" then m else setHeader m "Idempotency-Key" s)
        = (if truthy (some s) && (k == "Idempotency-Key") then some s else List.lookup k m)
    by_cases hs : s = ""
    · rw [if_pos hs, if_neg (by simp [truthy, hs])]
    · rw [if_neg hs, lookup_setHeader]
      by_cases hk : k = "Idempotency-Key"
      · rw [if_pos hk, if_pos (by simp [truthy, hs, hk])]
      · rw [if_neg hk, if_neg (by simp [truthy, hk])]

/-- **C7.**  `prepareRequestConfig` merges headers deterministically with
later sources winning: for every key, the merged mapping binds it to the
computed `Idempotency-Key` (when a truthy key was supplied), else the
computed `Authorization: Bearer <token>` (when the effective token —
per-call `authToken` taking precedence over the client default — is
truthy), else the last surviving per-call header for that key (nullish
entries dropped, arrays joined with `", "`), else the client default. -/
theorem C7_header_merge (defaults : List (String × String))
    (callHeaders : Option (List (String × HVal)))
    (clientToken callToken idemKey : Option String) (k : String) :
    List.lookup k (prepareHeaders defaults callHeaders clientToken callToken idemKey)
      = claimedHeaderValue defaults callHeaders clientToken callToken idemKey k := by
  have hm1 : List.lookup k (match callHeaders with
      | none => defaults
      | some hs => hs.foldl (fun acc kv =>
          match renderHVal kv.2 with
          | none => acc
          | some v => setHeader acc kv.1 v) defaults)
      = (match (match callHeaders with
          | none => none
          | some hs => lastCallValue hs k) with
        | some v => some v
        | none => List.lookup k defaults) := by
    cases callHeaders with
    | none => rfl
    | some hs => exact lookup_foldl_setHeader hs defaults k
  simp only [prepareHeaders]
  rw [lookup_idem_layer, lookup_auth_layer, hm1]
  rfl

theorem firstTruthy_fallback (e : AxiosErrModel) :
    firstTruthy [e.response.map (fun r => r.statusText), some e.message]
        "Unexpected API error" = amendedFallback e := by
  unfold amendedFallback
  cases hr : e.response with
  | none => rfl
  | some r => rfl

/-- **C8, counterexample.**  With a body `{"errors": [""]}` — the array
present and non-empty — and status text `"Bad Request"`, the code's
`errors?.[0] || statusText || …` chain skips the falsy empty first entry
and produces `"Bad Request"`, while the claim requires the first entry
(`""`). -/
theorem C8_counterexample :
    (fromAxios c8err).message = "Bad Request"
    ∧ claimedMessage c8err = ""
    ∧ ("Bad Request" : String) ≠ "" := by
  refine ⟨rfl, rfl, by decide⟩

/-- **C8, amended.**  `fromAxios` produces a message equal to: the first
entry of the body's `errors` array when that array is present, non-empty
and its first entry is itself non-empty; else the response's status text
when a response with a non-empty status text arrived; else the error's own
message when non-empty; else `"Unexpected API error"`.  And its request id
is the `x-request-id` response header, falling back to `x-amzn-requestid`
only when `x-request-id` is absent, kept only when the selected value is a
string (undefined otherwise, and undefined when no response arrived). -/
theorem C8_from_axios_amended (e : AxiosErrModel) :
    (fromAxios e).message = amendedMessage e
    ∧ (fromAxios e).requestId = amendedRequestId e := by
  constructor
  · show firstTruthy
        [((e.response.bind (fun r => r.data?)).bind (fun p => p.errors)).bind List.head?,
          e.response.map (fun r => r.statusText), some e.message] "Unexpected API error"
      = amendedMessage e
    unfold amendedMessage
    cases hfe : ((e.response.bind (fun r => r.data?)).bind (fun p => p.errors)).bind List.head? with
    | none =>
      show firstTruthy [e.response.map (fun r => r.statusText), some e.message]
          "Unexpected API error" = amendedFallback e
      exact firstTruthy_fallback e
    | some s =>
      show (if s = "" then
            firstTruthy [e.response.map (fun r => r.statusText), some e.message]
              "Unexpected API error"
          else s)
        = (if s = "" then amendedFallback e else s)
      by_cases hs : s = ""
      · rw [if_pos hs, if_pos hs]
        exact firstTruthy_fallback e
      · rw [if_neg hs, if_neg hs]
  · show (match e.response with
        | none => none
        | some r => headerString r.headers "x-request-id" "x-amzn-requestid")
      = amendedRequestId e
    unfold amendedRequestId headerString
    cases e.response <;> rfl

theorem char_toNat_lt (c : Char) : c.toNat < 1114112 := by
  rcases c.valid with h | ⟨h1, h2⟩
  · exact lt_trans h (by norm_num)
  · exact h2

theorem hexVal_hexDigit {n : Nat} (h : n < 16) : hexVal (hexDigit n) = some n := by
  interval_cases n <;> rfl

theorem hexDigit_ne_slash {n : Nat} (h : n < 16) : ¬ hexDigit n = '/' := by
  interval_cases n <;> decide

theorem toBytes_cons (c : Char) (rest : List Char) :
    toBytes (c :: rest)
      = (if c = '%' then
          match rest with
          | h1 :: h2 :: rest2 =>
            (match hexVal h1, hexVal h2 with
             | some a, some b => (toBytes rest2).map (fun bs => (a * 16 + b) :: bs)
             | _, _ => none)
          | _ => none
        else (toBytes rest).map (fun bs => utf8Encode c.toNat ++ bs)) := by
  rw [toBytes.eq_def]

theorem toBytes_cons_ne {c : Char} (h : ¬ c = '%') (rest : List Char) :
    toBytes (c :: rest) = (toBytes rest).map (fun bs => utf8Encode c.toNat ++ bs) := by
  rw [toBytes_cons, if_neg h]

theorem toBytes_percentByte {b : Nat} (hb : b < 256) (rest : List Char) :
    toBytes (percentByte b ++ rest) = (toBytes rest).map (fun bs => b :: bs) := by
  show toBytes ('%' :: hexDigit (b / 16) :: hexDigit (b % 16) :: rest) = _
  rw [toBytes_cons, if_pos rfl]
  show (match hexVal (hexDigit (b / 16)), hexVal (hexDigit (b % 16)) with
        | some a, some b => (toBytes rest).map (fun bs => (a * 16 + b) :: bs)
        | _, _ => none) = _
  rw [hexVal_hexDigit (show b / 16 < 16 by omega), hexVal_hexDigit (show b % 16 < 16 by omega)]
  show (toBytes rest).map (fun bs => (b / 16 * 16 + b % 16) :: bs) = _
  have hv : b / 16 * 16 + b % 16 = b := by omega
  simp only [hv]

theorem toBytes_flatMap_percent {bl : List Nat} (h : ∀ b ∈ bl, b < 256) (rest : List Char) :
    toBytes (bl.flatMap percentByte ++ rest) = (toBytes rest).map (fun bs => bl ++ bs) := by
  induction bl with
  | nil =>
    show toBytes rest = _
    cases toBytes rest <;> rfl
  | cons b t ih =>
    have hb : b < 256 := h b (List.mem_cons_self ..)
    have ht : ∀ x ∈ t, x < 256 := fun x hx => h x (List.mem_cons_of_mem _ hx)
    show toBytes (percentByte b ++ (t.flatMap percentByte ++ rest)) = _
    rw [toBytes_percentByte hb, ih ht]
    cases toBytes rest <;> rfl

theorem utf8Encode_lt_256 {n : Nat} (hn : n < 1114112) : ∀ b ∈ utf8Encode n, b < 256 := by
  intro b hb
  unfold utf8Encode at hb
  by_cases h1 : n < 128
  · rw [if_pos h1] at hb
    rw [List.mem_singleton] at hb
    omega
  · rw [if_neg h1] at hb
    by_cases h2 : n < 2048
    · rw [if_pos h2] at hb
      simp only [List.mem_cons, List.not_mem_nil, or_false] at hb
      rcases hb with rfl | rfl <;> omega
    · rw [if_neg h2] at hb
      by_cases h3 : n < 65536
      · rw [if_pos h3] at hb
        simp only [List.mem_cons, List.not_mem_nil, or_false] at hb
        rcases hb with rfl | rfl | rfl <;> omega
      · rw [if_neg h3] at hb
        simp only [List.mem_cons, List.not_mem_nil, or_false] at hb
        rcases hb with rfl | rfl | rfl | rfl <;> omega

theorem toBytes_encodeChar (c : Char) (rest : List Char) :
    toBytes (encodeChar c ++ rest)
      = (toBytes rest).map (fun bs => utf8Encode c.toNat ++ bs) := by
  by_cases hu : isUnescapedJS c = true
  · have hc : ¬ c = '%' := by
      intro hcon
      rw [hcon] at hu
      exact absurd hu (by decide)
    have henc : encodeChar c = [c] := by
      unfold encodeChar
      rw [if_pos hu]
    rw [henc]
    show toBytes (c :: rest) = _
    exact toBytes_cons_ne hc rest
  · have henc : encodeChar c = (utf8Encode c.toNat).flatMap percentByte := by
      unfold encodeChar
      rw [if_neg hu]
    rw [henc]
    exact toBytes_flatMap_percent (utf8Encode_lt_256 (char_toNat_lt c)) rest

theorem toBytes_encode (s : List Char) :
    toBytes (s.flatMap encodeChar) = some (s.flatMap (fun c => utf8Encode c.toNat)) := by
  induction s with
  | nil => rfl
  | cons c t ih =>
    show toBytes (encodeChar c ++ t.flatMap encodeChar) = _
    rw [toBytes_encodeChar, ih]
    rfl

theorem decodeOne_encode (n : Nat) (hn : n < 1114112) (bs : List Nat) :
    ∃ b tail, utf8Encode n ++ bs = b :: tail ∧ decodeOne b tail = some (n, bs) := by
  by_cases h1 : n < 128
  · refine ⟨n, bs, ?_, ?_⟩
    · rw [show utf8Encode n = [n] by unfold utf8Encode; rw [if_pos h1]]
      rfl
    · unfold decodeOne
      rw [if_pos h1]
  · by_cases h2 : n < 2048
    · refine ⟨192 + n / 64, (128 + n % 64) :: bs, ?_, ?_⟩
      · rw [show utf8Encode n = [192 + n / 64, 128 + n % 64] by
          unfold utf8Encode; rw [if_neg h1, if_pos h2]]
        rfl
      · unfold decodeOne
        rw [if_neg (show ¬ 192 + n / 64 < 128 by omega),
          if_pos (show 192 + n / 64 < 224 by omega)]
        show some ((192 + n / 64 - 192) * 64 + (128 + n % 64 - 128), bs) = _
        have hv : (192 + n / 64 - 192) * 64 + (128 + n % 64 - 128) = n := by omega
        rw [hv]
    · by_cases h3 : n < 65536
      · refine ⟨224 + n / 4096, (128 + (n / 64) % 64) :: (128 + n % 64) :: bs, ?_, ?_⟩
        · rw [show utf8Encode n = [224 + n / 4096, 128 + (n / 64) % 64, 128 + n % 64] by
            unfold utf8Encode; rw [if_neg h1, if_neg h2, if_pos h3]]
          rfl
        · unfold decodeOne
          rw [if_neg (show ¬ 224 + n / 4096 < 128 by omega),
            if_neg (show ¬ 224 + n / 4096 < 224 by omega),
            if_pos (show 224 + n / 4096 < 240 by omega)]
          show some ((224 + n / 4096 - 224) * 4096 + (128 + (n / 64) % 64 - 128) * 64
              + (128 + n % 64 - 128), bs) = _
          have hv : (224 + n / 4096 - 224) * 4096 + (128 + (n / 64) % 64 - 128) * 64
              + (128 + n % 64 - 128) = n := by omega
          rw [hv]
      · refine ⟨240 + n / 262144,
          (128 + (n / 4096) % 64) :: (128 + (n / 64) % 64) :: (128 + n % 64) :: bs, ?_, ?_⟩
        · rw [show utf8Encode n
              = [240 + n / 262144, 128 + (n / 4096) % 64, 128 + (n / 64) % 64, 128 + n % 64] by
            unfold utf8Encode; rw [if_neg h1, if_neg h2, if_neg h3]]
          rfl
        · unfold decodeOne
          rw [if_neg (show ¬ 240 + n / 262144 < 128 by omega),
            if_neg (show ¬ 240 + n / 262144 < 224 by omega),
            if_neg (show ¬ 240 + n / 262144 < 240 by omega)]
          show some ((240 + n / 262144 - 240) * 262144 + (128 + (n / 4096) % 64 - 128) * 4096
              + (128 + (n / 64) % 64 - 128) * 64 + (128 + n % 64 - 128), bs) = _
          have hv : (240 + n / 262144 - 240) * 262144 + (128 + (n / 4096) % 64 - 128) * 4096
              + (128 + (n / 64) % 64 - 128) * 64 + (128 + n % 64 - 128) = n := by omega
          rw [hv]

theorem utf8DecodeFuel_encode (s : List Char) :
    ∀ fuel, s.length ≤ fuel →
      utf8DecodeFuel fuel (s.flatMap (fun c => utf8Encode c.toNat))
        = some (s.map Char.toNat) := by
  induction s with
  | nil =>
    intro fuel _
    cases fuel <;> rfl
  | cons c t ih =>
    intro fuel hf
    cases fuel with
    | zero => simp at hf
    | succ f =>
      obtain ⟨b, tail, hsplit, hdec⟩ := decodeOne_encode c.toNat (char_toNat_lt c)
          (t.flatMap (fun c => utf8Encode c.toNat))
      show utf8DecodeFuel (f + 1)
          (utf8Encode c.toNat ++ t.flatMap (fun c => utf8Encode c.toNat)) = _
      rw [hsplit]
      show (match decodeOne b tail with
            | none => none
            | some cr => (utf8DecodeFuel f cr.2).map (fun cs => cr.1 :: cs)) = _
      rw [hdec]
      show (utf8DecodeFuel f (t.flatMap (fun c => utf8Encode c.toNat))).map
          (fun cs => c.toNat :: cs) = _
      rw [ih f (by simp at hf; omega)]
      rfl

theorem length_le_utf8_length (s : List Char) :
    s.length ≤ (s.flatMap (fun c => utf8Encode c.toNat)).length := by
  induction s with
  | nil => exact Nat.le_refl 0
  | cons c t ih =>
    show (c :: t).length ≤ (utf8Encode c.toNat ++ t.flatMap (fun c => utf8Encode c.toNat)).length
    rw [List.length_append, List.length_cons]
    have h1 : 1 ≤ (utf8Encode c.toNat).length := by
      unfold utf8Encode
      split
      · exact Nat.le_refl 1
      · split
        · simp
        · split
          · simp
          · simp
    omega

theorem utf8Decode_encodeAll (s : List Char) :
    utf8Decode (s.flatMap (fun c => utf8Encode c.toNat)) = some (s.map Char.toNat) := by
  unfold utf8Decode
  exact utf8DecodeFuel_encode s _ (length_le_utf8_length s)

theorem slash_not_mem_encodeChar (c : Char) : ¬ '/' ∈ encodeChar c := by
  intro hmem
  unfold encodeChar at hmem
  split at hmem
  · rw [List.mem_singleton] at hmem
    rename_i hu
    rw [← hmem] at hu
    exact absurd hu (by decide)
  · rw [List.mem_flatMap] at hmem
    obtain ⟨b, hb, hx⟩ := hmem
    have hb256 : b < 256 := utf8Encode_lt_256 (char_toNat_lt c) b hb
    unfold percentByte at hx
    rcases List.mem_cons.mp hx with hx | hx
    · exact absurd hx (by decide)
    · rcases List.mem_cons.mp hx with hx | hx
      · exact hexDigit_ne_slash (show b / 16 < 16 by omega) hx.symm
      · rcases List.mem_cons.mp hx with hx | hx
        · exact hexDigit_ne_slash (show b % 16 < 16 by omega) hx.symm
        · simp at hx

/-- **C9, counterexample.**  `!` is an RFC 3986 reserved character
(sub-delims), yet `encodePathParam` leaves it entirely unescaped —
`encodeURIComponent` exempts `! * ' ( )` — so "every reserved character is
escaped" is false as stated. -/
theorem C9_counterexample :
    '!' ∈ rfc3986Reserved ∧ encodePathParam "!" = "!"
    ∧ ((encodePathParam "!").data.contains '%') = false := by
  refine ⟨by decide, by decide, by decide⟩

/-- **C9, amended.**  Path-parameter encoding round-trips: decoding
`encodePathParam s` with the standard component decoder restores `s` for
every string; encoding `"user/email@example.com"` yields
`"user%2Femail%40example.com"`; every RFC 3986 reserved character *except*
`! * ' ( )` is escaped (those five pass through unescaped); and the output
never contains `/`, so the identifier always stays a single path
segment. -/
theorem C9_encode_roundtrip_amended :
    (∀ s : String, decodeURIComponentModel (encodePathParam s) = some s)
    ∧ encodePathParam "user/email@example.com" = "user%2Femail%40example.com"
    ∧ ((rfc3986Reserved.filter
          (fun c => !(['!', '*', '\'', '(', ')'].contains c))).all
        (fun c => (encodeChar c).head? == some '%')) = true
    ∧ (∀ s : String, ((encodePathParam s).data.contains '/') = false) := by
  refine ⟨?_, by decide, by decide, ?_⟩
  · intro s
    show ((toBytes (s.data.flatMap encodeChar)).bind utf8Decode).map
        (fun cs => (⟨cs.map Char.ofNat⟩ : String)) = some s
    rw [toBytes_encode]
    show (utf8Decode (s.data.flatMap (fun c => utf8Encode c.toNat))).map
        (fun cs => (⟨cs.map Char.ofNat⟩ : String)) = some s
    rw [utf8Decode_encodeAll]
    show some (⟨(s.data.map Char.toNat).map Char.ofNat⟩ : String) = some s
    rw [List.map_map]
    have hmap : ∀ l : List Char, l.map (Char.ofNat ∘ Char.toNat) = l := by
      intro l
      induction l with
      | nil => rfl
      | cons c t ih =>
        show Char.ofNat c.toNat :: t.map (Char.ofNat ∘ Char.toNat) = c :: t
        rw [Char.ofNat_toNat, ih]
    rw [hmap]
  · intro s
    cases hc : (encodePathParam s).data.contains '/' with
    | false => rfl
    | true =>
      exfalso
      have hmem : '/' ∈ (encodePathParam s).data := by simpa using hc
      rw [show (encodePathParam s).data = s.data.flatMap encodeChar from rfl] at hmem
      rw [List.mem_flatMap] at hmem
      obtain ⟨c, _, hx⟩ := hmem
      exact slash_not_mem_encodeChar c hx

end CompanyCam
